import Mathlib

/-!
# Organic reaction graph: registry, loader, breadth-first search, path reconstruction

A shallow embedding of `src/main.cpp` (the part that is not drawing code) and
theorems about it.

Modelling conventions.

* A C string (`char[MAX_NAME_LEN]`, `const char *`, `std::string`) is a Lean
  `String`; `strcmp(a, b) == 0` is equality and `strcpy` is assignment.  This is
  what the C code does for names without a NUL character that fit their buffer
  (shorter than `MAX_NAME_LEN`); longer names are outside the model.
* A C array is a function from the index to the stored value, together with the
  counter the program keeps next to it (`num_compounds`, `rear`).  A store is
  `setAt`.  Indices are natural numbers; values that can be the sentinel `-1`
  are integers.
* `reactions[0 .. num_reactions)` is a list, `num_reactions` its length.
* The two `while` loops whose exit depends on the data (`bfs`, the backward walk
  of `getConversionPath`) carry a fuel counter and answer `none` when it runs
  out.  The fuel is `MAX_COMPOUNDS`, the size of the arrays they walk over.
-/

namespace ReactionGraph

/-! ## Constants and data structures -/

def MAX_COMPOUNDS : Nat := 100

def MAX_NAME_LEN : Nat := 50

def MAX_REACTIONS : Nat := 100

/-- The `struct Reaction` of the source: three names. -/
structure Reaction where
  reactant : String
  product : String
  reactionType : String
deriving DecidableEq, Repr

/-- The `struct Graph` of the source. -/
structure Graph where
  num_compounds : Nat
  compounds : Nat → String
  adjacency : Nat → Nat → Int
  reactionType : Nat → String

/-- The store `a[i] = v`. -/
def setAt {α : Type} (a : Nat → α) (i : Nat) (v : α) : Nat → α :=
  fun j => if j = i then v else a j

/-- The store `m[i][j] = v`. -/
def setAt2 {α : Type} (m : Nat → Nat → α) (i j : Nat) (v : α) : Nat → Nat → α :=
  fun a b => if a = i ∧ b = j then v else m a b

/-- The value of `Graph graph = {0}` after the clearing loops of `main`. -/
def emptyGraph : Graph :=
  { num_compounds := 0
    compounds := fun _ => ""
    adjacency := fun _ _ => 0
    reactionType := fun _ => "" }

/-! ## Graph helper functions -/

/-- The `for` loop of `find_compound_index`, started at index `i` with `k`
iterations left (`k = num_compounds - i`). -/
def find_compound_index_loop (graph : Graph) (compound : String) : Nat → Nat → Int
  | 0, _ => -1
  | k + 1, i =>
    if graph.compounds i = compound then (i : Int)
    else find_compound_index_loop graph compound k (i + 1)

/-- The source's `find_compound_index`: first index holding the name, else `-1`. -/
def find_compound_index (graph : Graph) (compound : String) : Int :=
  find_compound_index_loop graph compound graph.num_compounds 0

/-- The source's `add_compound`: the new graph and the returned `int`. -/
def add_compound (graph : Graph) (compound : String) : Graph × Int :=
  if find_compound_index graph compound = -1 then
    ({ graph with
        compounds := setAt graph.compounds graph.num_compounds compound
        num_compounds := graph.num_compounds + 1 }, 1)
  else (graph, 0)

/-- The source's `add_reactionType`; its `static int i` is passed in and out. -/
def add_reactionType (graph : Graph) (i : Nat) (reactionTypeStr : String) : Graph × Nat :=
  if i < MAX_COMPOUNDS then
    ({ graph with reactionType := setAt graph.reactionType i reactionTypeStr }, i + 1)
  else (graph, i)

/-- The source's `add_reaction`. -/
def add_reaction (graph : Graph) (reactant product : String) : Graph :=
  let reactant_index := find_compound_index graph reactant
  let product_index := find_compound_index graph product
  if reactant_index ≠ -1 ∧ product_index ≠ -1 then
    { graph with
        adjacency := setAt2 graph.adjacency reactant_index.toNat product_index.toNat 1 }
  else graph

/-! ## Breadth-first search -/

/-- The local variables of `bfs` together with the `parent` array it fills. -/
structure BfsState where
  visited : Nat → Int
  queue : Nat → Nat
  front : Nat
  rear : Nat
  parent : Nat → Int

/-- One iteration of the inner `for` loop of `bfs`, at neighbour candidate `i`. -/
def bfs_visit (graph : Graph) (current : Nat) (s : BfsState) (i : Nat) : BfsState :=
  if graph.adjacency current i ≠ 0 ∧ s.visited i = 0 then
    { s with
        queue := setAt s.queue s.rear i
        rear := s.rear + 1
        visited := setAt s.visited i 1
        parent := setAt s.parent i (current : Int) }
  else s

/-- The inner `for (i = 0; i < num_compounds; i++)` loop of `bfs`. -/
def bfs_scan (graph : Graph) (current : Nat) (s : BfsState) : BfsState :=
  (List.range graph.num_compounds).foldl (bfs_visit graph current) s

/-- The `while (front < rear)` loop of `bfs`; `none` when the fuel runs out with
the queue still non-empty. -/
def bfs_loop (graph : Graph) (end_ : Nat) : Nat → BfsState → Option BfsState
  | 0, s => if s.front < s.rear then none else some s
  | fuel + 1, s =>
    if s.front < s.rear then
      let current := s.queue s.front
      let s1 := { s with front := s.front + 1 }
      if current = end_ then some s1
      else bfs_loop graph end_ fuel (bfs_scan graph current s1)
    else some s

/-- The state of `bfs` on entry to its `while` loop.  The queue array is not
initialised by the source; slot `0` is written before any read. -/
def bfs_init (start : Nat) (parent : Nat → Int) : BfsState :=
  { visited := setAt (fun _ => 0) start 1
    queue := setAt (fun _ => 0) 0 start
    front := 0
    rear := 1
    parent := setAt parent start (-1) }

/-- The source's `bfs`: the `parent` array after the call. -/
def bfs (graph : Graph) (start end_ : Nat) (parent : Nat → Int) : Option (Nat → Int) :=
  (bfs_loop graph end_ MAX_COMPOUNDS (bfs_init start parent)).map (fun s => s.parent)

/-! ## Path reconstruction -/

/-- The `while (current != -1)` loop of `getConversionPath`. -/
def walk_back (parent : Nat → Int) : Nat → Int → List Int → Option (List Int)
  | 0, current, pathIndices => if current ≠ -1 then none else some pathIndices
  | fuel + 1, current, pathIndices =>
    if current ≠ -1 then
      walk_back parent fuel (parent current.toNat) (pathIndices ++ [current])
    else some pathIndices

/-- The inner `for (j = 0; j < num_reactions; j++)` loop of `getConversionPath`:
the value of `reactionFound` when the loop is left. -/
def find_reaction (fromCompound toCompound : String) : List Reaction → String
  | [] => ""
  | r :: rest =>
    if r.reactant = fromCompound ∧ r.product = toCompound then r.reactionType
    else find_reaction fromCompound toCompound rest

/-- The label of one step: `reactionFound` after the `"Unknown"` substitution. -/
def step_label (graph : Graph) (reactions : List Reaction) (fromIndex toIndex : Int) : String :=
  let reactionFound :=
    find_reaction (graph.compounds fromIndex.toNat) (graph.compounds toIndex.toNat) reactions
  if reactionFound = "" then "Unknown" else reactionFound

/-- The text one iteration of the outer `for` loop appends to `pathStr`. -/
def step_line (graph : Graph) (reactions : List Reaction) (fromIndex toIndex : Int) : String :=
  graph.compounds fromIndex.toNat ++ " -> " ++ step_label graph reactions fromIndex toIndex
    ++ " -> " ++ graph.compounds toIndex.toNat ++ "\n"

/-- The outer `for` loop of `getConversionPath` over consecutive pairs.  (The
source's bound `size() - 1` is unsigned; the walk pushes `end` first, so the
vector it runs over is never empty.) -/
def path_text (graph : Graph) (reactions : List Reaction) : List Int → String
  | fromIndex :: toIndex :: rest =>
    step_line graph reactions fromIndex toIndex ++ path_text graph reactions (toIndex :: rest)
  | _ => ""

/-- The source's `getConversionPath`: the returned string and `pathIndices`. -/
def getConversionPath (graph : Graph) (parent : Nat → Int) (_start end_ : Int)
    (reactions : List Reaction) : Option (String × List Int) :=
  match walk_back parent MAX_COMPOUNDS end_ [] with
  | none => none
  | some walked =>
    let pathIndices := walked.reverse
    some (path_text graph reactions pathIndices, pathIndices)

/-! ## The search handler of `main` -/

def msgEnterBoth : String := "Please enter both start and end compounds."

def msgCompoundNotFound : String := "Start or end compound not found in the graph."

def msgNoPath : String := "No conversion path found."

/-- Lines 339-349 of `main`, the branch taken when both names are registered,
with the search routine as a parameter: the new `outputText` and
`conversionPathIndices`. -/
def search_found_with (bfsImpl : Graph → Nat → Nat → (Nat → Int) → Option (Nat → Int))
    (graph : Graph) (reactions : List Reaction) (startIndex endIndex : Int) :
    Option (String × List Int) :=
  match bfsImpl graph startIndex.toNat endIndex.toNat (fun _ => -1) with
  | none => none
  | some parent =>
    if startIndex ≠ endIndex ∧ parent endIndex.toNat = -1 then some (msgNoPath, [])
    else getConversionPath graph parent startIndex endIndex reactions

/-- The button handler of `main` with the search routine as a parameter: the new
`outputText` and `conversionPathIndices`. -/
def search_with (bfsImpl : Graph → Nat → Nat → (Nat → Int) → Option (Nat → Int))
    (graph : Graph) (reactions : List Reaction) (startInput endInput : String) :
    Option (String × List Int) :=
  if startInput = "" ∨ endInput = "" then some (msgEnterBoth, [])
  else
    let startIndex := find_compound_index graph startInput
    let endIndex := find_compound_index graph endInput
    if startIndex = -1 ∨ endIndex = -1 then some (msgCompoundNotFound, [])
    else search_found_with bfsImpl graph reactions startIndex endIndex

/-- The button handler of `main`. -/
def search (graph : Graph) (reactions : List Reaction) (startInput endInput : String) :
    Option (String × List Int) :=
  search_with bfs graph reactions startInput endInput

/-! ## The loader of `main` -/

/-- What the load loop of `main` keeps: the graph, `reactions[0 .. num_reactions)`
and the static counter of `add_reactionType`. -/
structure LoadState where
  graph : Graph
  reactions : List Reaction
  type_slot : Nat

def load_init : LoadState :=
  { graph := emptyGraph, reactions := [], type_slot := 0 }

/-- One pass of the load loop for a line that parsed into the triple `r`. -/
def load_triple (st : LoadState) (r : Reaction) : LoadState :=
  if st.reactions.length < MAX_REACTIONS then
    let added := add_compound st.graph r.product
    let typed :=
      if added.2 ≠ 0 then add_reactionType added.1 st.type_slot r.reactionType
      else (added.1, st.type_slot)
    let graph := (add_compound typed.1 r.reactant).1
    { graph := graph, reactions := st.reactions ++ [r], type_slot := typed.2 }
  else st

/-- The loop "Build the adjacency matrix" of `main`. -/
def build_adjacency (graph : Graph) (reactions : List Reaction) : Graph :=
  reactions.foldl (fun g r => add_reaction g r.reactant r.product) graph

/-- The load loop followed by the adjacency loop, for a file whose lines parse
into `triples`. -/
def load (triples : List Reaction) : LoadState :=
  let st := triples.foldl load_triple load_init
  { st with graph := build_adjacency st.graph st.reactions }

/-- The four oxidation triples of the round-trip example. -/
def oxidationTriples : List Reaction :=
  [ ⟨"CH4", "CH3OH", "Oxidation"⟩, ⟨"CH3OH", "HCHO", "Oxidation"⟩,
    ⟨"HCHO", "HCOOH", "Oxidation"⟩, ⟨"HCOOH", "CO2", "Oxidation"⟩ ]


/-! ## Specification vocabulary -/

/-- The graph after calling `add_compound` for each name in turn, from the
empty graph. -/
def register_all (names : List String) : Graph :=
  names.foldl (fun g c => (add_compound g c).1) emptyGraph

/-- No name is stored at two indices below `num_compounds`. -/
def DistinctNames (g : Graph) : Prop :=
  ∀ i j, i < g.num_compounds → j < g.num_compounds → g.compounds i = g.compounds j → i = j

/-- The set of registered names. -/
def nameSet (g : Graph) : Finset String :=
  (Finset.range g.num_compounds).image g.compounds


/-- Entry `r` of the catalog backs the step from index `u` to index `v`. -/
def Backs (g : Graph) (u v : Int) (r : Reaction) : Prop :=
  r.reactant = g.compounds u.toNat ∧ r.product = g.compounds v.toNat

/-- Entry `r` at position `k` is the lowest-indexed catalog entry backing the
step from `u` to `v`. -/
def FirstBacking (g : Graph) (reactions : List Reaction) (u v : Int) (k : Nat) (r : Reaction) :
    Prop :=
  reactions[k]? = some r ∧ Backs g u v r ∧
    ∀ m q, m < k → reactions[m]? = some q → ¬ Backs g u v q

/-- A catalog whose only label is the text of the marker. -/
def unknownCatalog : List Reaction := [⟨"A", "B", "Unknown"⟩]

/-- The names a list of triples mentions, in the order the loader registers
them: product, then reactant, triple by triple. -/
def compoundNames : List Reaction → List String
  | [] => []
  | r :: rest => r.product :: r.reactant :: compoundNames rest

/-- The edge relation the scan of `bfs` follows from a dequeued index: a
registered index whose matrix entry is non-zero. -/
def Adj (g : Graph) (u v : Nat) : Prop :=
  v < g.num_compounds ∧ g.adjacency u v ≠ 0

/-- Every two neighbouring elements of the list are related by `R`. -/
def Linked (R : Nat → Nat → Prop) : List Nat → Prop
  | u :: v :: rest => R u v ∧ Linked R (v :: rest)
  | _ => True

/-- The list `p` is a directed path from `start` to `end_` in the adjacency
matrix, over registered indices. -/
def DirectedPath (g : Graph) (start end_ : Nat) (p : List Nat) : Prop :=
  p.head? = some start ∧ p.getLast? = some end_ ∧ (∀ x ∈ p, x < g.num_compounds) ∧
    Linked (fun u v => g.adjacency u v ≠ 0) p

/-- The loop invariant of `bfs`.  `d` is the depth at which an index entered the
queue; `i` is how far the scan of the last dequeued index `queue[front - 1]` has
come. -/
structure BfsInv (g : Graph) (start : Nat) (d : Nat → Nat) (s : BfsState) (i : Nat) : Prop where
  front_le : s.front ≤ s.rear
  rear_pos : 0 < s.rear
  q_zero : s.queue 0 = start
  d_zero : d start = 0
  par_start : s.parent start = -1
  in_range : ∀ j, j < s.rear → s.queue j < g.num_compounds
  vis_queue : ∀ j, j < s.rear → s.visited (s.queue j) ≠ 0
  queue_vis : ∀ v, s.visited v ≠ 0 → ∃ j, j < s.rear ∧ s.queue j = v
  inj : ∀ j k, j < s.rear → k < s.rear → s.queue j = s.queue k → j = k
  par : ∀ j, 0 < j → j < s.rear → ∃ k, k < s.front ∧ k < j ∧
    s.parent (s.queue j) = (s.queue k : Int) ∧ Adj g (s.queue k) (s.queue j) ∧
    d (s.queue j) = d (s.queue k) + 1
  unvis : ∀ v, s.visited v = 0 → s.parent v = -1
  mono : ∀ j k, j ≤ k → k < s.rear → d (s.queue j) ≤ d (s.queue k)
  near : ∀ j, j < s.rear → d (s.queue j) ≤ d (s.queue (s.front - 1)) + 1
  done : ∀ k w, k + 1 < s.front → Adj g (s.queue k) w →
    s.visited w ≠ 0 ∧ d w ≤ d (s.queue k) + 1
  cur : ∀ w, w < i → 0 < s.front → Adj g (s.queue (s.front - 1)) w → s.visited w ≠ 0

/-- How `bfs` can leave its loop. -/
def BfsExit (g : Graph) (start end_ : Nat) (s : BfsState) : Prop :=
  (∃ d, BfsInv g start d s 0 ∧ 0 < s.front ∧ s.queue (s.front - 1) = end_) ∨
  (∃ d, BfsInv g start d s g.num_compounds ∧ s.front = s.rear ∧
    ∀ k, k < s.front → s.queue k ≠ end_)

/-- The state `main` reaches when `reactions.txt` cannot be opened: the four
default reactions are copied into `reactions`, no compound is registered, and
the adjacency loop runs over them. -/
def load_default : LoadState :=
  { graph := build_adjacency emptyGraph oxidationTriples
    reactions := oxidationTriples
    type_slot := 0 }

/-- A short name for the compound number `k`, different for different `k`
below 110. -/
def compoundName (k : Nat) : String :=
  String.mk (List.replicate (k % 10 + 1) 'a' ++ List.replicate (k / 10 + 1) 'b')

/-- Fifty-one triples over 102 different names. -/
def overflowTriples : List Reaction :=
  (List.range 51).map
    (fun k => ⟨compoundName (2 * k), compoundName (2 * k + 1), "Oxidation"⟩)

/-- The registered names in index order. -/
def regList (g : Graph) : List String :=
  (List.range g.num_compounds).map g.compounds

/-- The states the inner `for` loop of `bfs` passes through: before its first
iteration and after each iteration. -/
def bfs_scan_states (graph : Graph) (current : Nat) (s : BfsState) : List BfsState :=
  (List.range (graph.num_compounds + 1)).map
    (fun m => (List.range m).foldl (bfs_visit graph current) s)

/-- The states `bfs` passes through, in order: at every test of `front < rear`,
after every dequeue, after every iteration of the scan. -/
def bfs_states (graph : Graph) (end_ : Nat) : Nat → BfsState → List BfsState
  | 0, s => [s]
  | fuel + 1, s =>
    if s.front < s.rear then
      let current := s.queue s.front
      let s1 := { s with front := s.front + 1 }
      if current = end_ then [s, s1]
      else s :: (bfs_scan_states graph current s1
        ++ bfs_states graph end_ fuel (bfs_scan graph current s1))
    else [s]

/-- The queue of `bfs` is within bounds in state `s`: the counters are ordered
and below `num_compounds`, the read `queue[front]` and any write `queue[rear]`
the scan can make use an index below `MAX_COMPOUNDS`, the queued values are
registered indices, and no value is queued twice. -/
structure QueueSafe (g : Graph) (s : BfsState) : Prop where
  front_le : s.front ≤ s.rear
  rear_le : s.rear ≤ g.num_compounds
  read_ok : s.front < s.rear → s.front < MAX_COMPOUNDS ∧ s.queue s.front < g.num_compounds
  write_ok : ∀ c i, i < g.num_compounds → g.adjacency c i ≠ 0 ∧ s.visited i = 0 →
    s.rear < MAX_COMPOUNDS ∧ (bfs_visit g c s i).queue s.rear = i
  values : ∀ j, j < s.rear → s.queue j < g.num_compounds
  once : ∀ j k, j < s.rear → k < s.rear → s.queue j = s.queue k → j = k

/-- The loop of `bfs` as the specification words it, without the early exit:
the same breadth-first search, run until the queue is empty. -/
def bfs_loop_full (graph : Graph) : Nat → BfsState → Option BfsState
  | 0, s => if s.front < s.rear then none else some s
  | fuel + 1, s =>
    if s.front < s.rear then
      let current := s.queue s.front
      let s1 := { s with front := s.front + 1 }
      bfs_loop_full graph fuel (bfs_scan graph current s1)
    else some s

/-- The search without the early exit: the `parent` array once the queue is
empty. -/
def bfs_full (graph : Graph) (start : Nat) (parent : Nat → Int) : Option (Nat → Int) :=
  (bfs_loop_full graph MAX_COMPOUNDS (bfs_init start parent)).map (fun s => s.parent)

/-- State `t` keeps what state `s` has visited, with the same predecessors. -/
def Keeps (s t : BfsState) : Prop :=
  ∀ v, s.visited v ≠ 0 → t.visited v ≠ 0 ∧ t.parent v = s.parent v

/-- Strictly smaller in the lexicographic order of index sequences. -/
def LexLt : List Nat → List Nat → Prop
  | [], [] => False
  | [], _ :: _ => True
  | _ :: _, [] => False
  | a :: p, b :: q => a < b ∨ (a = b ∧ LexLt p q)

/-- At most, in the lexicographic order of index sequences. -/
def LexLe (p q : List Nat) : Prop :=
  p = q ∨ LexLt p q

/-- The part of the loop invariant of `bfs` about the tie-break.  `T v` is the
sequence from `start` to `v` along the predecessors; `i` is how far the scan of
`queue[front - 1]` has come. -/
structure LexInv (g : Graph) (start : Nat) (T : Nat → List Nat) (s : BfsState) (i : Nat) :
    Prop where
  t_start : T start = [start]
  t_par : ∀ j, 0 < j → j < s.rear → ∃ k, k < j ∧ k < s.front ∧
    s.parent (s.queue j) = (s.queue k : Int) ∧ T (s.queue j) = T (s.queue k) ++ [s.queue j]
  t_order : ∀ j k, j < k → k < s.rear →
    (T (s.queue j)).length = (T (s.queue k)).length → LexLt (T (s.queue j)) (T (s.queue k))
  t_min : ∀ j, j < s.rear → ∀ P : List Nat, P.head? = some start →
    P.getLast? = some (s.queue j) → Linked (Adj g) P →
    P.length = (T (s.queue j)).length → LexLe (T (s.queue j)) P
  t_cur : ∀ j, 0 < j → j < s.rear → 0 < s.front →
    s.parent (s.queue j) = (s.queue (s.front - 1) : Int) → s.queue j < i

/-! ## The line parser of `main`

A `std::string` is read as its list of characters; the separator, the space and
the tab are single characters in every encoding the program can meet, so
positions counted in characters and in bytes cut the line at the same places. -/

/-- The characters `trim` removes: the set `" \t"` of the source. -/
def isBlank (c : Char) : Bool :=
  c = ' ' || c = '\t'

/-- The source's `s.find_first_not_of(" \t")`; `none` is `npos`. -/
def find_first_not_of : List Char → Option Nat
  | [] => none
  | c :: rest =>
    if isBlank c then (find_first_not_of rest).map (fun k => k + 1) else some 0

/-- The source's `s.find_last_not_of(" \t")`; `none` is `npos`. -/
def find_last_not_of : List Char → Option Nat
  | [] => none
  | c :: rest =>
    match find_last_not_of rest with
    | some k => some (k + 1)
    | none => if isBlank c then none else some 0

/-- The source's `s.substr(pos, len)`, for `pos` within the string. -/
def substr (s : List Char) (pos len : Nat) : List Char :=
  (s.drop pos).take len

/-- The source's `trim` on the characters of a string.  (When a first kept
character exists a last one exists too; the `none` of the inner match does not
occur.) -/
def trimChars (s : List Char) : List Char :=
  match find_first_not_of s with
  | none => []
  | some start =>
    match find_last_not_of s with
    | none => []
    | some end_ => substr s start (end_ - start + 1)

/-- The source's `trim`. -/
def trim (s : String) : String :=
  String.mk (trimChars s.data)

/-- The search of `find("->", ...)` through the characters left, the first of
which has position `k`. -/
def find_arrow_at : List Char → Nat → Option Nat
  | [], _ => none
  | [_], _ => none
  | a :: b :: rest, k =>
    if a = '-' ∧ b = '>' then some k else find_arrow_at (b :: rest) (k + 1)

/-- The source's `line.find("->", pos)`; `none` is `npos`. -/
def find_arrow (line : List Char) (pos : Nat) : Option Nat :=
  find_arrow_at (line.drop pos) pos

/-- The body of the load loop up to the three `trim` calls: `none` when the
line is skipped by one of the three `continue`s. -/
def parse_line (line : String) : Option Reaction :=
  if line = "" then none
  else
    match find_arrow line.data 0 with
    | none => none
    | some pos1 =>
      let reactantStr := trim (String.mk (substr line.data 0 pos1))
      match find_arrow line.data (pos1 + 2) with
      | none => none
      | some pos2 =>
        let reactionTypeStr :=
          trim (String.mk (substr line.data (pos1 + 2) (pos2 - (pos1 + 2))))
        let productStr := trim (String.mk (line.data.drop (pos2 + 2)))
        some ⟨reactantStr, productStr, reactionTypeStr⟩

/-- One pass of the load loop of `main` for the line `line`. -/
def load_line (st : LoadState) (line : String) : LoadState :=
  match parse_line line with
  | none => st
  | some r => load_triple st r

/-- The load loop over the lines of the file, followed by the adjacency loop. -/
def load_lines (lines : List String) : LoadState :=
  let st := lines.foldl load_line load_init
  { st with graph := build_adjacency st.graph st.reactions }

/-- What `main` has built when it enters its event loop: `none` stands for a
`reactions.txt` that cannot be opened, `some lines` for its lines. -/
def main_load (file : Option (List String)) : LoadState :=
  match file with
  | none => load_default
  | some lines => load_lines lines

theorem find_loop_neg_one (g : Graph) (c : String) :
    ∀ k i, find_compound_index_loop g c k i = -1 ↔
      ∀ j, i ≤ j → j < i + k → g.compounds j ≠ c := by
  intro k
  induction k with
  | zero =>
    intro i
    simp only [find_compound_index_loop, true_iff]
    intro j h1 h2
    omega
  | succ k ih =>
    intro i
    unfold find_compound_index_loop
    by_cases h : g.compounds i = c
    · rw [if_pos h]
      constructor
      · intro h0
        omega
      · intro hall
        exact absurd h (hall i (le_refl i) (by omega))
    · rw [if_neg h, ih (i + 1)]
      constructor
      · intro hall j h1 h2
        by_cases hj : j = i
        · subst hj
          exact h
        · exact hall j (by omega) (by omega)
      · intro hall j h1 h2
        exact hall j (by omega) (by omega)

theorem find_loop_eq_nat (g : Graph) (c : String) :
    ∀ k i (j : Nat), find_compound_index_loop g c k i = (j : Int) ↔
      (i ≤ j ∧ j < i + k ∧ g.compounds j = c ∧
        ∀ m, i ≤ m → m < j → g.compounds m ≠ c) := by
  intro k
  induction k with
  | zero =>
    intro i j
    simp only [find_compound_index_loop]
    constructor
    · intro h0
      omega
    · rintro ⟨h1, h2, _⟩
      omega
  | succ k ih =>
    intro i j
    unfold find_compound_index_loop
    by_cases h : g.compounds i = c
    · rw [if_pos h]
      constructor
      · intro h0
        have hij : i = j := by omega
        subst hij
        refine ⟨le_refl _, by omega, h, ?_⟩
        intro m h1 h2
        omega
      · rintro ⟨h1, _, _, h4⟩
        by_cases hij : i = j
        · rw [hij]
        · exact absurd h (h4 i (le_refl i) (by omega))
    · rw [if_neg h, ih (i + 1) j]
      constructor
      · rintro ⟨h1, h2, h3, h4⟩
        refine ⟨by omega, by omega, h3, ?_⟩
        intro m hm1 hm2
        by_cases hmi : m = i
        · subst hmi
          exact h
        · exact h4 m (by omega) hm2
      · rintro ⟨h1, h2, h3, h4⟩
        have hne : i ≠ j := by
          intro hij
          subst hij
          exact h h3
        exact ⟨by omega, by omega, h3, fun m hm1 hm2 => h4 m (by omega) hm2⟩

theorem find_loop_cases (g : Graph) (c : String) :
    ∀ k i, find_compound_index_loop g c k i = -1 ∨
      ∃ j : Nat, find_compound_index_loop g c k i = (j : Int) := by
  intro k
  induction k with
  | zero =>
    intro i
    exact Or.inl rfl
  | succ k ih =>
    intro i
    unfold find_compound_index_loop
    by_cases h : g.compounds i = c
    · rw [if_pos h]
      exact Or.inr ⟨i, rfl⟩
    · rw [if_neg h]
      exact ih (i + 1)

theorem find_eq_neg_one_iff (g : Graph) (c : String) :
    find_compound_index g c = -1 ↔ ∀ j, j < g.num_compounds → g.compounds j ≠ c := by
  unfold find_compound_index
  rw [find_loop_neg_one]
  constructor
  · intro h j hj
    exact h j (Nat.zero_le j) (by omega)
  · intro h j _ hj
    exact h j (by omega)

theorem find_eq_nat_iff (g : Graph) (c : String) (j : Nat) :
    find_compound_index g c = (j : Int) ↔
      (j < g.num_compounds ∧ g.compounds j = c ∧ ∀ m, m < j → g.compounds m ≠ c) := by
  unfold find_compound_index
  rw [find_loop_eq_nat]
  constructor
  · rintro ⟨_, h2, h3, h4⟩
    exact ⟨by omega, h3, fun m hm => h4 m (Nat.zero_le m) hm⟩
  · rintro ⟨h2, h3, h4⟩
    exact ⟨Nat.zero_le j, by omega, h3, fun m _ hm => h4 m hm⟩

theorem find_cases (g : Graph) (c : String) :
    find_compound_index g c = -1 ∨ ∃ j : Nat, find_compound_index g c = (j : Int) :=
  find_loop_cases g c g.num_compounds 0


theorem mem_nameSet (g : Graph) (c : String) :
    c ∈ nameSet g ↔ ∃ j, j < g.num_compounds ∧ g.compounds j = c := by
  simp [nameSet]

theorem find_ne_neg_one_iff (g : Graph) (c : String) :
    find_compound_index g c ≠ -1 ↔ c ∈ nameSet g := by
  rw [mem_nameSet, Ne, find_eq_neg_one_iff]
  push_neg
  rfl

theorem add_compound_known (g : Graph) (c : String) (h : find_compound_index g c ≠ -1) :
    add_compound g c = (g, 0) := by
  unfold add_compound
  rw [if_neg h]

theorem add_compound_new (g : Graph) (c : String) (h : find_compound_index g c = -1) :
    add_compound g c =
      ({ g with
          compounds := setAt g.compounds g.num_compounds c
          num_compounds := g.num_compounds + 1 }, 1) := by
  unfold add_compound
  rw [if_pos h]

theorem add_compound_distinct (g : Graph) (c : String) (hd : DistinctNames g) :
    DistinctNames (add_compound g c).1 := by
  by_cases h : find_compound_index g c = -1
  · rw [add_compound_new g c h]
    have hnot := (find_eq_neg_one_iff g c).1 h
    intro i j hi hj hij
    simp only [setAt] at hi hj hij
    by_cases h1 : i = g.num_compounds
    · by_cases h2 : j = g.num_compounds
      · omega
      · rw [if_pos h1, if_neg h2] at hij
        exact absurd hij.symm (hnot j (by omega))
    · by_cases h2 : j = g.num_compounds
      · rw [if_neg h1, if_pos h2] at hij
        exact absurd hij (hnot i (by omega))
      · rw [if_neg h1, if_neg h2] at hij
        exact hd i j (by omega) (by omega) hij
  · rw [add_compound_known g c h]
    exact hd

theorem add_compound_nameSet (g : Graph) (c : String) :
    nameSet (add_compound g c).1 = insert c (nameSet g) := by
  ext x
  by_cases h : find_compound_index g c = -1
  · rw [add_compound_new g c h, Finset.mem_insert, mem_nameSet, mem_nameSet]
    simp only [setAt]
    constructor
    · rintro ⟨j, hj, hx⟩
      by_cases h1 : j = g.num_compounds
      · rw [if_pos h1] at hx
        exact Or.inl hx.symm
      · rw [if_neg h1] at hx
        exact Or.inr ⟨j, by omega, hx⟩
    · rintro (hx | ⟨j, hj, hx⟩)
      · exact ⟨g.num_compounds, by omega, by rw [if_pos rfl]; exact hx.symm⟩
      · exact ⟨j, by omega, by rw [if_neg (by omega)]; exact hx⟩
  · rw [add_compound_known g c h, Finset.mem_insert]
    have hc : c ∈ nameSet g := (find_ne_neg_one_iff g c).1 h
    constructor
    · intro hx
      exact Or.inr hx
    · rintro (hx | hx)
      · rw [hx]
        exact hc
      · exact hx

theorem card_nameSet (g : Graph) (hd : DistinctNames g) :
    (nameSet g).card = g.num_compounds := by
  unfold nameSet
  rw [Finset.card_image_of_injOn, Finset.card_range]
  intro i hi j hj hij
  simp only [Finset.coe_range, Set.mem_Iio] at hi hj
  exact hd i j hi hj hij

theorem emptyGraph_distinct : DistinctNames emptyGraph := by
  intro i j hi _ _
  simp [emptyGraph] at hi

theorem foldl_add_compound_spec (names : List String) :
    ∀ g : Graph, DistinctNames g →
      DistinctNames (names.foldl (fun g c => (add_compound g c).1) g) ∧
      nameSet (names.foldl (fun g c => (add_compound g c).1) g) = nameSet g ∪ names.toFinset := by
  induction names with
  | nil =>
    intro g hd
    simp [hd]
  | cons c rest ih =>
    intro g hd
    obtain ⟨h1, h2⟩ := ih (add_compound g c).1 (add_compound_distinct g c hd)
    refine ⟨h1, ?_⟩
    simp only [List.foldl_cons, List.toFinset_cons]
    rw [h2, add_compound_nameSet]
    ext x
    simp only [Finset.mem_union, Finset.mem_insert]
    tauto

theorem register_all_spec (names : List String) :
    DistinctNames (register_all names) ∧
      (register_all names).num_compounds = names.toFinset.card := by
  obtain ⟨h1, h2⟩ := foldl_add_compound_spec names emptyGraph emptyGraph_distinct
  refine ⟨h1, ?_⟩
  have h3 := card_nameSet _ h1
  unfold register_all
  have he : nameSet emptyGraph = ∅ := by simp [nameSet, emptyGraph]
  rw [← h3, h2, he, Finset.empty_union]

theorem find_of_distinct (g : Graph) (hd : DistinctNames g) (i : Nat) (hi : i < g.num_compounds) :
    find_compound_index g (g.compounds i) = (i : Int) := by
  rw [find_eq_nat_iff]
  refine ⟨hi, rfl, ?_⟩
  intro m hm heq
  have := hd m i (by omega) hi heq
  omega

/-- C9 (registry bijection): in the state reached from the empty graph by any
sequence of `add_compound` calls with fewer than `MAX_COMPOUNDS` distinct names,
the array stays below capacity, the stored names are pairwise distinct,
`find_compound_index` of the name stored at `i` is `i`, and
`find_compound_index` answers `-1` exactly for the names that are not stored
(string equality is exact, hence case-sensitive). -/
theorem registry_bijection (names : List String)
    (hcap : names.toFinset.card < MAX_COMPOUNDS) :
    (register_all names).num_compounds < MAX_COMPOUNDS ∧
    (∀ i j, i < (register_all names).num_compounds → j < (register_all names).num_compounds →
      (register_all names).compounds i = (register_all names).compounds j → i = j) ∧
    (∀ i, i < (register_all names).num_compounds →
      find_compound_index (register_all names) ((register_all names).compounds i) = (i : Int)) ∧
    (∀ name, find_compound_index (register_all names) name = -1 ↔
      ∀ i, i < (register_all names).num_compounds → (register_all names).compounds i ≠ name) := by
  obtain ⟨hd, hn⟩ := register_all_spec names
  refine ⟨by omega, hd, fun i hi => find_of_distinct _ hd i hi, fun name => find_eq_neg_one_iff _ name⟩

theorem registry_bijection_witness :
    ["CH4", "CO2", "CH4"].toFinset.card < MAX_COMPOUNDS ∧
    find_compound_index (register_all ["CH4", "CO2", "CH4"])
      ((register_all ["CH4", "CO2", "CH4"]).compounds 1) = ((1 : Nat) : Int) :=
  ⟨by decide, (registry_bijection ["CH4", "CO2", "CH4"] (by decide)).2.2.1 1 (by decide)⟩


/-! ## Step labels -/

theorem find_reaction_none (f t : String) (reactions : List Reaction)
    (h : ∀ r ∈ reactions, ¬ (r.reactant = f ∧ r.product = t)) :
    find_reaction f t reactions = "" := by
  induction reactions with
  | nil => rfl
  | cons r rest ih =>
    unfold find_reaction
    rw [if_neg (h r (List.mem_cons_self r rest))]
    exact ih (fun q hq => h q (List.mem_cons_of_mem r hq))

theorem find_reaction_first (f t : String) (reactions : List Reaction) :
    ∀ (k : Nat) (r : Reaction), reactions[k]? = some r → (r.reactant = f ∧ r.product = t) →
      (∀ m q, m < k → reactions[m]? = some q → ¬ (q.reactant = f ∧ q.product = t)) →
      find_reaction f t reactions = r.reactionType := by
  induction reactions with
  | nil =>
    intro k r hk
    simp at hk
  | cons a rest ih =>
    intro k r hk hr hfirst
    unfold find_reaction
    cases k with
    | zero =>
      simp only [List.getElem?_cons_zero, Option.some.injEq] at hk
      subst hk
      rw [if_pos hr]
    | succ k =>
      have ha : ¬ (a.reactant = f ∧ a.product = t) :=
        hfirst 0 a (Nat.succ_pos k) (by simp)
      rw [if_neg ha]
      simp only [List.getElem?_cons_succ] at hk
      refine ih k r hk hr ?_
      intro m q hm hq
      exact hfirst (m + 1) q (by omega) (by simpa using hq)

theorem exists_first_backing (f t : String) (reactions : List Reaction)
    (h : ∃ r ∈ reactions, r.reactant = f ∧ r.product = t) :
    ∃ (k : Nat) (r : Reaction), reactions[k]? = some r ∧ (r.reactant = f ∧ r.product = t) ∧
      ∀ m q, m < k → reactions[m]? = some q → ¬ (q.reactant = f ∧ q.product = t) := by
  induction reactions with
  | nil =>
    obtain ⟨r, hr, _⟩ := h
    simp at hr
  | cons a rest ih =>
    by_cases ha : a.reactant = f ∧ a.product = t
    · refine ⟨0, a, by simp, ha, ?_⟩
      intro m q hm
      omega
    · have h2 : ∃ r ∈ rest, r.reactant = f ∧ r.product = t := by
        obtain ⟨r, hr, hb⟩ := h
        rcases List.mem_cons.1 hr with h1 | h1
        · subst h1
          exact absurd hb ha
        · exact ⟨r, h1, hb⟩
      obtain ⟨k, r, hk, hb, hfirst⟩ := ih h2
      refine ⟨k + 1, r, by simpa using hk, hb, ?_⟩
      intro m q hm hq
      cases m with
      | zero =>
        simp only [List.getElem?_cons_zero, Option.some.injEq] at hq
        subst hq
        exact ha
      | succ m =>
        simp only [List.getElem?_cons_succ] at hq
        exact hfirst m q (by omega) hq

/-- C5, as the code has it (first-match label): for a catalog whose labels are
non-empty, the label of the step from `u` to `v` is the `reactionType` of the
lowest-indexed catalog entry backing the step (so of two entries for one pair
the first-inserted label is returned); it is the text `Unknown` whenever no
entry backs the step; and when it is `Unknown`, either no entry backs the step
or the lowest-indexed backing entry carries the label `Unknown` itself. -/
theorem step_label_first_match (g : Graph) (reactions : List Reaction) (u v : Int)
    (hne : ∀ r ∈ reactions, r.reactionType ≠ "") :
    (∀ k r, FirstBacking g reactions u v k r → step_label g reactions u v = r.reactionType) ∧
    ((∀ r ∈ reactions, ¬ Backs g u v r) → step_label g reactions u v = "Unknown") ∧
    (step_label g reactions u v = "Unknown" →
      (∀ r ∈ reactions, ¬ Backs g u v r) ∨
      ∃ k r, FirstBacking g reactions u v k r ∧ r.reactionType = "Unknown") := by
  have hfirst : ∀ k r, FirstBacking g reactions u v k r →
      step_label g reactions u v = r.reactionType := by
    intro k r hk
    obtain ⟨h1, h2, h3⟩ := hk
    have hmem : r ∈ reactions := List.getElem?_mem h1
    have hf := find_reaction_first _ _ reactions k r h1 h2 h3
    unfold step_label
    simp only
    rw [hf, if_neg (hne r hmem)]
  refine ⟨hfirst, ?_, ?_⟩
  · intro hnone
    unfold step_label
    simp only
    rw [find_reaction_none _ _ reactions hnone, if_pos rfl]
  · intro hlabel
    by_cases hex : ∃ r ∈ reactions, Backs g u v r
    · obtain ⟨k, r, h1, h2, h3⟩ := exists_first_backing _ _ reactions hex
      refine Or.inr ⟨k, r, ⟨h1, h2, h3⟩, ?_⟩
      rw [← hfirst k r ⟨h1, h2, h3⟩]
      exact hlabel
    · left
      intro r hr hb
      exact hex ⟨r, hr, hb⟩

theorem step_label_first_match_witness :
    (∀ r ∈ oxidationTriples, r.reactionType ≠ "") ∧
      step_label (load oxidationTriples).graph oxidationTriples 1 0 = "Oxidation" :=
  ⟨by decide,
   (step_label_first_match (load oxidationTriples).graph oxidationTriples 1 0 (by decide)).1 0
     ⟨"CH4", "CH3OH", "Oxidation"⟩
     ⟨by decide, ⟨by decide, by decide⟩, fun m q hm => absurd hm (Nat.not_lt_zero m)⟩⟩

/-- C5 as stated fails: the catalog with the single triple `A -> Unknown -> B`
has only non-empty labels, the search from `A` to `B` returns the one-step path,
its step carries the label `Unknown`, and yet a catalog entry backs the step. -/
theorem unknown_label_with_backing_entry :
    (∀ r ∈ (load unknownCatalog).reactions, r.reactionType ≠ "") ∧
    search (load unknownCatalog).graph (load unknownCatalog).reactions "A" "B"
      = some ("A -> Unknown -> B\n", [1, 0]) ∧
    ¬ (step_label (load unknownCatalog).graph (load unknownCatalog).reactions 1 0 = "Unknown" ↔
        ∀ r ∈ (load unknownCatalog).reactions,
          ¬ Backs (load unknownCatalog).graph 1 0 r) := by
  refine ⟨by decide, by decide, ?_⟩
  intro h
  have h1 : step_label (load unknownCatalog).graph (load unknownCatalog).reactions 1 0
      = "Unknown" := by decide
  have h2 := h.1 h1 ⟨"A", "B", "Unknown"⟩ (by decide)
  exact h2 ⟨by decide, by decide⟩

/-! ## Registering twice -/

theorem find_after_add (g : Graph) (c : String) :
    find_compound_index (add_compound g c).1 c ≠ -1 := by
  rw [find_ne_neg_one_iff, add_compound_nameSet]
  exact Finset.mem_insert_self c _

/-- C10 (register is idempotent): in a state below capacity, after
`add_compound name` the name has an index `k` below `num_compounds` with
`find_compound_index name = k`; a second `add_compound name` returns `0` and
leaves the whole graph, so `num_compounds` and every stored name, unchanged, and
`find_compound_index name` is still `k`. -/
theorem add_compound_idempotent (g : Graph) (name : String)
    (hcap : g.num_compounds < MAX_COMPOUNDS) :
    ∃ k : Nat, k < (add_compound g name).1.num_compounds ∧
      (add_compound g name).1.num_compounds ≤ MAX_COMPOUNDS ∧
      find_compound_index (add_compound g name).1 name = (k : Int) ∧
      add_compound (add_compound g name).1 name = ((add_compound g name).1, 0) ∧
      (add_compound (add_compound g name).1 name).1.num_compounds
        = (add_compound g name).1.num_compounds ∧
      (∀ i, (add_compound (add_compound g name).1 name).1.compounds i
        = (add_compound g name).1.compounds i) ∧
      find_compound_index (add_compound (add_compound g name).1 name).1 name = (k : Int) := by
  have hfound := find_after_add g name
  have hsame := add_compound_known (add_compound g name).1 name hfound
  rcases find_cases (add_compound g name).1 name with h | ⟨k, hk⟩
  · exact absurd h hfound
  · have hlt := ((find_eq_nat_iff _ name k).1 hk).1
    have hle : (add_compound g name).1.num_compounds ≤ MAX_COMPOUNDS := by
      by_cases h : find_compound_index g name = -1
      · rw [add_compound_new g name h]
        exact hcap
      · rw [add_compound_known g name h]
        exact Nat.le_of_lt hcap
    refine ⟨k, hlt, hle, hk, hsame, ?_, ?_, ?_⟩
    · rw [hsame]
    · intro i
      rw [hsame]
    · rw [hsame]
      exact hk

theorem add_compound_idempotent_witness :
    emptyGraph.num_compounds < MAX_COMPOUNDS ∧
    ∃ k : Nat, k < (add_compound emptyGraph "CH4").1.num_compounds ∧
      (add_compound emptyGraph "CH4").1.num_compounds ≤ MAX_COMPOUNDS ∧
      find_compound_index (add_compound emptyGraph "CH4").1 "CH4" = (k : Int) ∧
      add_compound (add_compound emptyGraph "CH4").1 "CH4"
        = ((add_compound emptyGraph "CH4").1, 0) ∧
      (add_compound (add_compound emptyGraph "CH4").1 "CH4").1.num_compounds
        = (add_compound emptyGraph "CH4").1.num_compounds ∧
      (∀ i, (add_compound (add_compound emptyGraph "CH4").1 "CH4").1.compounds i
        = (add_compound emptyGraph "CH4").1.compounds i) ∧
      find_compound_index (add_compound (add_compound emptyGraph "CH4").1 "CH4").1 "CH4"
        = (k : Int) :=
  ⟨by decide, add_compound_idempotent emptyGraph "CH4" (by decide)⟩

/-! ## The search handler: unknown names, equal names, the oxidation chain -/

/-- C7 (unknown compound): for non-empty input names of which one is not
registered, the handler answers the compound-not-found text with an empty path
whatever the search routine is, so without running it, in particular for the
real `bfs`; the text differs from the one of the path-not-found answer. -/
theorem search_unknown_compound (g : Graph) (reactions : List Reaction)
    (startInput endInput : String) (hs : startInput ≠ "") (he : endInput ≠ "")
    (h : find_compound_index g startInput = -1 ∨ find_compound_index g endInput = -1) :
    (∀ bfsImpl, search_with bfsImpl g reactions startInput endInput
      = some (msgCompoundNotFound, [])) ∧
    search g reactions startInput endInput = some (msgCompoundNotFound, []) ∧
    msgCompoundNotFound = "Start or end compound not found in the graph." ∧
    msgCompoundNotFound ≠ msgNoPath := by
  have hall : ∀ bfsImpl, search_with bfsImpl g reactions startInput endInput
      = some (msgCompoundNotFound, []) := by
    intro bfsImpl
    unfold search_with
    rw [if_neg (by tauto)]
    simp only
    rw [if_pos h]
  exact ⟨hall, hall bfs, rfl, by decide⟩

theorem search_unknown_compound_witness :
    "CO" ≠ "" ∧ "CO2" ≠ "" ∧
    (find_compound_index (load oxidationTriples).graph "CO" = -1 ∨
      find_compound_index (load oxidationTriples).graph "CO2" = -1) ∧
    search (load oxidationTriples).graph (load oxidationTriples).reactions "CO" "CO2"
      = some (msgCompoundNotFound, []) :=
  ⟨by decide, by decide, Or.inl (by decide),
   (search_unknown_compound (load oxidationTriples).graph (load oxidationTriples).reactions
      "CO" "CO2" (by decide) (by decide) (Or.inl (by decide))).2.1⟩

theorem walk_back_done (parent : Nat → Int) (fuel : Nat) (acc : List Int) :
    walk_back parent fuel (-1) acc = some acc := by
  cases fuel <;> simp [walk_back]

theorem bfs_same (g : Graph) (s : Nat) (parent : Nat → Int) :
    bfs g s s parent = some (setAt parent s (-1)) := by
  unfold bfs
  have h : MAX_COMPOUNDS = 99 + 1 := rfl
  rw [h]
  simp [bfs_loop, bfs_init, setAt]

/-- C6 (start equals end): for every graph and registered index `s`, the
found-branch of the handler run from `s` to `s` answers the empty text and the
one-element path `[s]`, whatever the edges of the graph are; so does the handler
for a non-empty name registered at `s`. -/
theorem search_same_compound (g : Graph) (reactions : List Reaction) (s : Nat)
    (hs : s < g.num_compounds) :
    search_found_with bfs g reactions (s : Int) (s : Int) = some ("", [(s : Int)]) ∧
    ∀ name, name ≠ "" → find_compound_index g name = (s : Int) →
      search g reactions name name = some ("", [(s : Int)]) := by
  have hmain : search_found_with bfs g reactions (s : Int) (s : Int)
      = some ("", [(s : Int)]) := by
    unfold search_found_with
    simp only [Int.toNat_ofNat, bfs_same]
    rw [if_neg (by simp)]
    unfold getConversionPath
    have h : MAX_COMPOUNDS = 99 + 1 := rfl
    have hne : (s : Int) ≠ -1 := by omega
    rw [h]
    unfold walk_back
    rw [if_pos hne]
    simp only [Int.toNat_ofNat, setAt, if_true, List.nil_append, walk_back_done]
    simp [path_text]
  refine ⟨hmain, ?_⟩
  intro name hname hfind
  unfold search search_with
  rw [if_neg (by tauto)]
  simp only [hfind]
  rw [if_neg (by omega)]
  exact hmain

theorem search_same_compound_witness :
    (2 : Nat) < (load oxidationTriples).graph.num_compounds ∧
    search_found_with bfs (load oxidationTriples).graph (load oxidationTriples).reactions
      ((2 : Nat) : Int) ((2 : Nat) : Int) = some ("", [((2 : Nat) : Int)]) :=
  ⟨by decide,
   (search_same_compound (load oxidationTriples).graph (load oxidationTriples).reactions 2
      (by decide)).1⟩

/-- C4 (round trip): the graph loaded from the four oxidation triples, searched
from `CH4` to `CO2`, gives the four lines `CH4 -> Oxidation -> CH3OH`,
`CH3OH -> Oxidation -> HCHO`, `HCHO -> Oxidation -> HCOOH`,
`HCOOH -> Oxidation -> CO2` and the index path whose names are
`CH4, CH3OH, HCHO, HCOOH, CO2`. -/
theorem oxidation_round_trip :
    search (load oxidationTriples).graph (load oxidationTriples).reactions "CH4" "CO2"
      = some ("CH4 -> Oxidation -> CH3OH\nCH3OH -> Oxidation -> HCHO\n"
          ++ "HCHO -> Oxidation -> HCOOH\nHCOOH -> Oxidation -> CO2\n", [1, 0, 2, 3, 4]) ∧
    ([1, 0, 2, 3, 4] : List Int).map (fun i => (load oxidationTriples).graph.compounds i.toNat)
      = ["CH4", "CH3OH", "HCHO", "HCOOH", "CO2"] ∧
    (load oxidationTriples).reactions = oxidationTriples := by
  refine ⟨by decide, by decide, by decide⟩

/-! ## The loader -/

theorem add_reactionType_num (g : Graph) (i : Nat) (s : String) :
    (add_reactionType g i s).1.num_compounds = g.num_compounds := by
  unfold add_reactionType
  split <;> rfl

theorem add_reactionType_compounds (g : Graph) (i : Nat) (s : String) :
    (add_reactionType g i s).1.compounds = g.compounds := by
  unfold add_reactionType
  split <;> rfl

theorem add_reactionType_adjacency (g : Graph) (i : Nat) (s : String) :
    (add_reactionType g i s).1.adjacency = g.adjacency := by
  unfold add_reactionType
  split <;> rfl

theorem add_compound_adjacency (g : Graph) (c : String) :
    (add_compound g c).1.adjacency = g.adjacency := by
  unfold add_compound
  split <;> rfl

theorem distinct_congr (g h : Graph) (hn : h.num_compounds = g.num_compounds)
    (hc : h.compounds = g.compounds) (hd : DistinctNames g) : DistinctNames h := by
  intro i j hi hj hij
  rw [hn] at hi hj
  rw [hc] at hij
  exact hd i j hi hj hij

theorem nameSet_congr (g h : Graph) (hn : h.num_compounds = g.num_compounds)
    (hc : h.compounds = g.compounds) : nameSet h = nameSet g := by
  unfold nameSet
  rw [hn, hc]

/-- What the load loop keeps true. -/
theorem load_triple_spec (names : Finset String) (st : LoadState) (r : Reaction)
    (hd : DistinctNames st.graph) (hz : ∀ u v, st.graph.adjacency u v = 0)
    (hsub : nameSet st.graph ⊆ names) (hp : r.product ∈ names) (hr : r.reactant ∈ names) :
    DistinctNames (load_triple st r).graph ∧
    (∀ u v, (load_triple st r).graph.adjacency u v = 0) ∧
    nameSet (load_triple st r).graph ⊆ names := by
  unfold load_triple
  by_cases hfull : st.reactions.length < MAX_REACTIONS
  · rw [if_pos hfull]
    simp only
    have hd1 := add_compound_distinct st.graph r.product hd
    have hs1 := add_compound_nameSet st.graph r.product
    have ha1 := add_compound_adjacency st.graph r.product
    generalize add_compound st.graph r.product = added at hd1 hs1 ha1 ⊢
    have hd2 : DistinctNames
        (if added.2 ≠ 0 then add_reactionType added.1 st.type_slot r.reactionType
          else (added.1, st.type_slot)).1 := by
      split
      · exact distinct_congr _ _ (add_reactionType_num _ _ _)
          (add_reactionType_compounds _ _ _) hd1
      · exact hd1
    have hs2 : nameSet
        (if added.2 ≠ 0 then add_reactionType added.1 st.type_slot r.reactionType
          else (added.1, st.type_slot)).1 = nameSet added.1 := by
      split
      · exact nameSet_congr _ _ (add_reactionType_num _ _ _) (add_reactionType_compounds _ _ _)
      · rfl
    have ha2 : (if added.2 ≠ 0 then add_reactionType added.1 st.type_slot r.reactionType
          else (added.1, st.type_slot)).1.adjacency = added.1.adjacency := by
      split
      · exact add_reactionType_adjacency _ _ _
      · rfl
    generalize (if added.2 ≠ 0 then add_reactionType added.1 st.type_slot r.reactionType
          else (added.1, st.type_slot)) = typed at hd2 hs2 ha2 ⊢
    refine ⟨add_compound_distinct _ _ hd2, ?_, ?_⟩
    · intro u v
      rw [add_compound_adjacency, ha2, ha1]
      exact hz u v
    · rw [add_compound_nameSet, hs2, hs1]
      intro x hx
      simp only [Finset.mem_insert] at hx
      rcases hx with hx | hx | hx
      · rw [hx]
        exact hr
      · rw [hx]
        exact hp
      · exact hsub hx
  · rw [if_neg hfull]
    exact ⟨hd, hz, hsub⟩

theorem mem_compoundNames (triples : List Reaction) (r : Reaction) (h : r ∈ triples) :
    r.product ∈ compoundNames triples ∧ r.reactant ∈ compoundNames triples := by
  induction triples with
  | nil => simp at h
  | cons a rest ih =>
    unfold compoundNames
    rcases List.mem_cons.1 h with h1 | h1
    · subst h1
      simp
    · obtain ⟨h2, h3⟩ := ih h1
      simp [h2, h3]

theorem load_loop_spec (names : Finset String) (triples : List Reaction) :
    ∀ st : LoadState, DistinctNames st.graph → (∀ u v, st.graph.adjacency u v = 0) →
      nameSet st.graph ⊆ names →
      (∀ r ∈ triples, r.product ∈ names ∧ r.reactant ∈ names) →
      DistinctNames (triples.foldl load_triple st).graph ∧
      (∀ u v, (triples.foldl load_triple st).graph.adjacency u v = 0) ∧
      nameSet (triples.foldl load_triple st).graph ⊆ names := by
  induction triples with
  | nil =>
    intro st hd hz hsub _
    exact ⟨hd, hz, hsub⟩
  | cons r rest ih =>
    intro st hd hz hsub hall
    obtain ⟨h1, h2, h3⟩ := load_triple_spec names st r hd hz hsub
      (hall r (List.mem_cons_self r rest)).1 (hall r (List.mem_cons_self r rest)).2
    exact ih (load_triple st r) h1 h2 h3 (fun q hq => hall q (List.mem_cons_of_mem r hq))

theorem load_loop_facts (triples : List Reaction) :
    DistinctNames (triples.foldl load_triple load_init).graph ∧
    (∀ u v, (triples.foldl load_triple load_init).graph.adjacency u v = 0) ∧
    (triples.foldl load_triple load_init).graph.num_compounds
      ≤ (compoundNames triples).toFinset.card := by
  obtain ⟨h1, h2, h3⟩ := load_loop_spec (compoundNames triples).toFinset triples load_init
    emptyGraph_distinct (fun _ _ => rfl)
    (by
      intro x hx
      simp [nameSet, load_init, emptyGraph] at hx)
    (by
      intro r hr
      obtain ⟨h4, h5⟩ := mem_compoundNames triples r hr
      exact ⟨List.mem_toFinset.2 h4, List.mem_toFinset.2 h5⟩)
  refine ⟨h1, h2, ?_⟩
  rw [← card_nameSet _ h1]
  exact Finset.card_le_card h3

theorem add_reaction_spec (g : Graph) (hd : DistinctNames g) (a b : String) :
    (add_reaction g a b).num_compounds = g.num_compounds ∧
    (add_reaction g a b).compounds = g.compounds ∧
    ∀ u v, (add_reaction g a b).adjacency u v =
      if u < g.num_compounds ∧ v < g.num_compounds ∧ g.compounds u = a ∧ g.compounds v = b
      then 1 else g.adjacency u v := by
  unfold add_reaction
  simp only
  rcases find_cases g a with ha | ⟨i, hi⟩
  · rw [if_neg (by tauto)]
    refine ⟨rfl, rfl, ?_⟩
    intro u v
    have hno := (find_eq_neg_one_iff g a).1 ha
    rw [if_neg]
    rintro ⟨h1, _, h3, _⟩
    exact hno u h1 h3
  · rcases find_cases g b with hb | ⟨j, hj⟩
    · rw [if_neg (by tauto)]
      refine ⟨rfl, rfl, ?_⟩
      intro u v
      have hno := (find_eq_neg_one_iff g b).1 hb
      rw [if_neg]
      rintro ⟨_, h2, _, h4⟩
      exact hno v h2 h4
    · rw [if_pos ⟨by omega, by omega⟩]
      refine ⟨rfl, rfl, ?_⟩
      intro u v
      obtain ⟨hi1, hi2, _⟩ := (find_eq_nat_iff g a i).1 hi
      obtain ⟨hj1, hj2, _⟩ := (find_eq_nat_iff g b j).1 hj
      simp only [hi, hj, Int.toNat_ofNat, setAt2]
      by_cases huv : u = i ∧ v = j
      · rw [if_pos huv, if_pos]
        obtain ⟨h1, h2⟩ := huv
        subst h1 h2
        exact ⟨hi1, hj1, hi2, hj2⟩
      · rw [if_neg huv, if_neg]
        rintro ⟨h1, h2, h3, h4⟩
        apply huv
        exact ⟨hd u i h1 hi1 (h3.trans hi2.symm), hd v j h2 hj1 (h4.trans hj2.symm)⟩

theorem build_adjacency_spec (reactions : List Reaction) :
    ∀ g : Graph, DistinctNames g →
      (build_adjacency g reactions).num_compounds = g.num_compounds ∧
      (build_adjacency g reactions).compounds = g.compounds ∧
      ∀ u v, (build_adjacency g reactions).adjacency u v =
        if u < g.num_compounds ∧ v < g.num_compounds ∧
            ∃ r ∈ reactions, r.reactant = g.compounds u ∧ r.product = g.compounds v
        then 1 else g.adjacency u v := by
  induction reactions with
  | nil =>
    intro g _
    simp [build_adjacency]
  | cons a rest ih =>
    intro g hd
    obtain ⟨h1, h2, h3⟩ := add_reaction_spec g hd a.reactant a.product
    obtain ⟨k1, k2, k3⟩ := ih (add_reaction g a.reactant a.product)
      (distinct_congr _ _ h1 h2 hd)
    have hstep : build_adjacency g (a :: rest)
        = build_adjacency (add_reaction g a.reactant a.product) rest := rfl
    rw [hstep]
    refine ⟨k1.trans h1, k2.trans h2, ?_⟩
    intro u v
    rw [k3 u v, h1, h2, h3 u v]
    by_cases hu : u < g.num_compounds
    · by_cases hv : v < g.num_compounds
      · by_cases hrest : ∃ r ∈ rest, r.reactant = g.compounds u ∧ r.product = g.compounds v
        · rw [if_pos ⟨hu, hv, hrest⟩, if_pos]
          obtain ⟨r, hr, hb⟩ := hrest
          exact ⟨hu, hv, r, List.mem_cons_of_mem a hr, hb⟩
        · rw [if_neg (fun h => hrest h.2.2)]
          by_cases hhead : g.compounds u = a.reactant ∧ g.compounds v = a.product
          · rw [if_pos ⟨hu, hv, hhead⟩, if_pos]
            exact ⟨hu, hv, a, List.mem_cons_self a rest, hhead.1.symm, hhead.2.symm⟩
          · rw [if_neg (by tauto), if_neg]
            rintro ⟨_, _, r, hr, hb1, hb2⟩
            rcases List.mem_cons.1 hr with h | h
            · subst h
              exact hhead ⟨hb1.symm, hb2.symm⟩
            · exact hrest ⟨r, h, hb1, hb2⟩
      · rw [if_neg (by tauto), if_neg (by tauto), if_neg (by tauto)]
    · rw [if_neg (by tauto), if_neg (by tauto), if_neg (by tauto)]

theorem load_graph_spec (triples : List Reaction) :
    DistinctNames (load triples).graph ∧
    (load triples).graph.num_compounds ≤ (compoundNames triples).toFinset.card ∧
    ∀ u v, (load triples).graph.adjacency u v =
      if u < (load triples).graph.num_compounds ∧ v < (load triples).graph.num_compounds ∧
          ∃ r ∈ (load triples).reactions,
            r.reactant = (load triples).graph.compounds u ∧
            r.product = (load triples).graph.compounds v
      then 1 else 0 := by
  obtain ⟨h1, h2, h3⟩ := load_loop_facts triples
  obtain ⟨k1, k2, k3⟩ := build_adjacency_spec (triples.foldl load_triple load_init).reactions
    (triples.foldl load_triple load_init).graph h1
  have hg : (load triples).graph = build_adjacency (triples.foldl load_triple load_init).graph
      (triples.foldl load_triple load_init).reactions := rfl
  have hr : (load triples).reactions = (triples.foldl load_triple load_init).reactions := rfl
  rw [hg, hr]
  refine ⟨distinct_congr _ _ k1 k2 h1, by rw [k1]; exact h3, ?_⟩
  intro u v
  rw [k3 u v, k1, k2, h2 u v]

theorem setAt_same {α : Type} (a : Nat → α) (i : Nat) (v : α) : setAt a i v i = v := by
  simp [setAt]

theorem setAt_other {α : Type} (a : Nat → α) (i j : Nat) (v : α) (h : j ≠ i) :
    setAt a i v j = a j := by
  simp [setAt, h]

theorem bfs_init_inv (g : Graph) (start : Nat) (parent : Nat → Int) (i : Nat)
    (hs : start < g.num_compounds) (hp : ∀ v, parent v = -1) :
    BfsInv g start (fun _ => 0) (bfs_init start parent) i := by
  constructor
  · simp [bfs_init]
  · simp [bfs_init]
  · simp [bfs_init, setAt]
  · rfl
  · simp [bfs_init, setAt]
  · intro j hj
    simp only [bfs_init] at hj ⊢
    have : j = 0 := by omega
    subst this
    rw [setAt_same]
    exact hs
  · intro j hj
    simp only [bfs_init] at hj ⊢
    have : j = 0 := by omega
    subst this
    rw [setAt_same, setAt_same]
    decide
  · intro v hv
    simp only [bfs_init, setAt] at hv ⊢
    refine ⟨0, by omega, ?_⟩
    by_cases h : v = start
    · simp [h]
    · rw [if_neg h] at hv
      exact absurd rfl hv
  · intro j k hj hk _
    simp only [bfs_init] at hj hk
    omega
  · intro j h0 hj
    simp only [bfs_init] at hj
    omega
  · intro v _
    simp only [bfs_init, setAt]
    split
    · rfl
    · exact hp v
  · intro j k _ _
    exact le_refl _
  · intro j _
    exact Nat.le_succ _
  · intro k w hk
    simp only [bfs_init] at hk
    omega
  · intro w _ hf
    simp only [bfs_init] at hf
    omega

theorem bfs_visit_skip (g : Graph) (c : Nat) (s : BfsState) (i : Nat)
    (h : ¬ (g.adjacency c i ≠ 0 ∧ s.visited i = 0)) : bfs_visit g c s i = s := by
  unfold bfs_visit
  rw [if_neg h]

theorem bfs_visit_take (g : Graph) (c : Nat) (s : BfsState) (i : Nat)
    (h : g.adjacency c i ≠ 0 ∧ s.visited i = 0) :
    bfs_visit g c s i =
      { visited := setAt s.visited i 1
        queue := setAt s.queue s.rear i
        front := s.front
        rear := s.rear + 1
        parent := setAt s.parent i (c : Int) } := by
  unfold bfs_visit
  rw [if_pos h]

/-- One step of the scan keeps the invariant, the front, and the queue below the
old rear. -/
theorem bfs_visit_inv (g : Graph) (start : Nat) (d : Nat → Nat) (s : BfsState) (i : Nat)
    (h : BfsInv g start d s i) (hf : 0 < s.front) (hi : i < g.num_compounds) :
    (∃ d2, BfsInv g start d2 (bfs_visit g (s.queue (s.front - 1)) s i) (i + 1)) ∧
    (bfs_visit g (s.queue (s.front - 1)) s i).front = s.front ∧
    s.rear ≤ (bfs_visit g (s.queue (s.front - 1)) s i).rear ∧
    ∀ j, j < s.rear → (bfs_visit g (s.queue (s.front - 1)) s i).queue j = s.queue j := by
  by_cases hc : g.adjacency (s.queue (s.front - 1)) i ≠ 0 ∧ s.visited i = 0
  · rw [bfs_visit_take g _ s i hc]
    obtain ⟨hadj, hvis⟩ := hc
    have hfl := h.front_le
    have hcl : s.front - 1 < s.rear := by omega
    have hnq : ∀ j, j < s.rear → s.queue j ≠ i := by
      intro j hj hji
      apply h.vis_queue j hj
      rw [hji]
      exact hvis
    have hq : ∀ j, j < s.rear → setAt s.queue s.rear i j = s.queue j := by
      intro j hj
      exact setAt_other _ _ _ _ (by omega)
    have hcne : s.queue (s.front - 1) ≠ i := hnq _ hcl
    have hsne : start ≠ i := by
      rw [← h.q_zero]
      exact hnq 0 h.rear_pos
    refine ⟨⟨setAt d i (d (s.queue (s.front - 1)) + 1), ?_⟩, rfl, Nat.le_succ _, hq⟩
    constructor
    · show s.front ≤ s.rear + 1
      omega
    · show 0 < s.rear + 1
      omega
    · show setAt s.queue s.rear i 0 = start
      rw [hq 0 h.rear_pos]
      exact h.q_zero
    · rw [setAt_other _ _ _ _ hsne]
      exact h.d_zero
    · show setAt s.parent i _ start = -1
      rw [setAt_other _ _ _ _ hsne]
      exact h.par_start
    · intro j hj
      show setAt s.queue s.rear i j < g.num_compounds
      by_cases hjr : j = s.rear
      · rw [hjr, setAt_same]
        exact hi
      · have hj2 : j < s.rear := by
          have : j < s.rear + 1 := hj
          omega
        rw [hq j hj2]
        exact h.in_range j hj2
    · intro j hj
      show setAt s.visited i 1 (setAt s.queue s.rear i j) ≠ 0
      by_cases hjr : j = s.rear
      · rw [hjr, setAt_same, setAt_same]
        decide
      · have hj2 : j < s.rear := by
          have : j < s.rear + 1 := hj
          omega
        rw [hq j hj2, setAt_other _ _ _ _ (hnq j hj2)]
        exact h.vis_queue j hj2
    · intro v hv
      show ∃ j, j < s.rear + 1 ∧ setAt s.queue s.rear i j = v
      by_cases hvi : v = i
      · exact ⟨s.rear, by omega, by rw [setAt_same, hvi]⟩
      · have hv2 : s.visited v ≠ 0 := by
          have : setAt s.visited i 1 v ≠ 0 := hv
          rw [setAt_other _ _ _ _ hvi] at this
          exact this
        obtain ⟨j, hj, hjv⟩ := h.queue_vis v hv2
        exact ⟨j, by omega, by rw [hq j hj]; exact hjv⟩
    · intro j k hj hk hjk
      have hj1 : j < s.rear + 1 := hj
      have hk1 : k < s.rear + 1 := hk
      have hjk1 : setAt s.queue s.rear i j = setAt s.queue s.rear i k := hjk
      by_cases hjr : j = s.rear
      · by_cases hkr : k = s.rear
        · omega
        · have hk2 : k < s.rear := by omega
          rw [hjr, setAt_same, hq k hk2] at hjk1
          exact absurd hjk1.symm (hnq k hk2)
      · have hj2 : j < s.rear := by omega
        by_cases hkr : k = s.rear
        · rw [hkr, setAt_same, hq j hj2] at hjk1
          exact absurd hjk1 (hnq j hj2)
        · have hk2 : k < s.rear := by omega
          rw [hq j hj2, hq k hk2] at hjk1
          exact h.inj j k hj2 hk2 hjk1
    · intro j h0 hj
      have hj1 : j < s.rear + 1 := hj
      show ∃ k, k < s.front ∧ k < j ∧
        setAt s.parent i _ (setAt s.queue s.rear i j) = ((setAt s.queue s.rear i k : Nat) : Int) ∧
        Adj g (setAt s.queue s.rear i k) (setAt s.queue s.rear i j) ∧
        setAt d i _ (setAt s.queue s.rear i j) = setAt d i _ (setAt s.queue s.rear i k) + 1
      by_cases hjr : j = s.rear
      · refine ⟨s.front - 1, by omega, by omega, ?_, ?_, ?_⟩
        · rw [hjr, setAt_same, setAt_same, hq _ hcl]
        · rw [hjr, setAt_same, hq _ hcl]
          exact ⟨hi, hadj⟩
        · rw [hjr, setAt_same, setAt_same, hq _ hcl, setAt_other _ _ _ _ hcne]
      · have hj2 : j < s.rear := by omega
        obtain ⟨k, hk1, hk2, hk3, hk4, hk5⟩ := h.par j h0 hj2
        have hk6 : k < s.rear := by omega
        refine ⟨k, hk1, hk2, ?_, ?_, ?_⟩
        · rw [hq j hj2, hq k hk6, setAt_other _ _ _ _ (hnq j hj2)]
          exact hk3
        · rw [hq j hj2, hq k hk6]
          exact hk4
        · rw [hq j hj2, hq k hk6, setAt_other _ _ _ _ (hnq j hj2),
            setAt_other _ _ _ _ (hnq k hk6)]
          exact hk5
    · intro v hv
      show setAt s.parent i _ v = -1
      have hv1 : setAt s.visited i 1 v = 0 := hv
      have hvi : v ≠ i := by
        intro hvi
        rw [hvi, setAt_same] at hv1
        exact absurd hv1 (by decide)
      rw [setAt_other _ _ _ _ hvi] at hv1
      rw [setAt_other _ _ _ _ hvi]
      exact h.unvis v hv1
    · intro j k hjk hk
      have hk1 : k < s.rear + 1 := hk
      show setAt d i _ (setAt s.queue s.rear i j) ≤ setAt d i _ (setAt s.queue s.rear i k)
      by_cases hkr : k = s.rear
      · rw [hkr, setAt_same, setAt_same]
        by_cases hjr : j = s.rear
        · rw [hjr, setAt_same, setAt_same]
        · have hj2 : j < s.rear := by omega
          rw [hq j hj2, setAt_other _ _ _ _ (hnq j hj2)]
          exact h.near j hj2
      · have hk2 : k < s.rear := by omega
        have hj2 : j < s.rear := by omega
        rw [hq j hj2, hq k hk2, setAt_other _ _ _ _ (hnq j hj2),
          setAt_other _ _ _ _ (hnq k hk2)]
        exact h.mono j k hjk hk2
    · intro j hj
      have hj1 : j < s.rear + 1 := hj
      show setAt d i _ (setAt s.queue s.rear i j)
        ≤ setAt d i _ (setAt s.queue s.rear i (s.front - 1)) + 1
      rw [hq _ hcl, setAt_other _ _ _ _ hcne]
      by_cases hjr : j = s.rear
      · rw [hjr, setAt_same, setAt_same]
      · have hj2 : j < s.rear := by omega
        rw [hq j hj2, setAt_other _ _ _ _ (hnq j hj2)]
        exact h.near j hj2
    · intro k w hk hkw
      have hk1 : k + 1 < s.front := hk
      have hk2 : k < s.rear := by omega
      have hkw1 : Adj g (setAt s.queue s.rear i k) w := hkw
      rw [hq k hk2] at hkw1
      obtain ⟨h1, h2⟩ := h.done k w hk1 hkw1
      have hwi : w ≠ i := by
        intro hwi
        rw [hwi] at h1
        exact h1 hvis
      show setAt s.visited i 1 w ≠ 0 ∧
        setAt d i _ w ≤ setAt d i _ (setAt s.queue s.rear i k) + 1
      rw [hq k hk2, setAt_other _ _ _ _ hwi, setAt_other _ _ _ _ hwi,
        setAt_other _ _ _ _ (hnq k hk2)]
      exact ⟨h1, h2⟩
    · intro w hw _ hcw
      have hcw1 : Adj g (setAt s.queue s.rear i (s.front - 1)) w := hcw
      rw [hq _ hcl] at hcw1
      show setAt s.visited i 1 w ≠ 0
      by_cases hwi : w = i
      · rw [hwi, setAt_same]
        decide
      · rw [setAt_other _ _ _ _ hwi]
        exact h.cur w (by omega) hf hcw1
  · rw [bfs_visit_skip g _ s i hc]
    refine ⟨⟨d, ?_⟩, rfl, le_refl _, fun _ _ => rfl⟩
    refine { h with cur := ?_ }
    intro w hw _ hcw
    by_cases hwi : w = i
    · rw [hwi] at hcw ⊢
      intro hv0
      exact hc ⟨hcw.2, hv0⟩
    · exact h.cur w (by omega) hf hcw

theorem bfs_scan_upto (g : Graph) (start : Nat) (s : BfsState)
    (hf : 0 < s.front) (hinv : ∃ d, BfsInv g start d s 0) :
    ∀ m, m ≤ g.num_compounds →
      (∃ d2, BfsInv g start d2
        ((List.range m).foldl (bfs_visit g (s.queue (s.front - 1))) s) m) ∧
      ((List.range m).foldl (bfs_visit g (s.queue (s.front - 1))) s).front = s.front ∧
      s.rear ≤ ((List.range m).foldl (bfs_visit g (s.queue (s.front - 1))) s).rear ∧
      ∀ j, j < s.rear →
        ((List.range m).foldl (bfs_visit g (s.queue (s.front - 1))) s).queue j = s.queue j := by
  intro m
  induction m with
  | zero =>
    intro _
    exact ⟨hinv, rfl, le_refl _, fun _ _ => rfl⟩
  | succ m ih =>
    intro hm
    obtain ⟨⟨d1, h1⟩, h2, h3, h4⟩ := ih (by omega)
    rw [List.range_succ, List.foldl_append]
    simp only [List.foldl_cons, List.foldl_nil]
    generalize (List.range m).foldl (bfs_visit g (s.queue (s.front - 1))) s = t at h1 h2 h3 h4
    have hfl := hinv.choose_spec.front_le
    have hcur : s.queue (s.front - 1) = t.queue (t.front - 1) := by
      rw [h2, h4 (s.front - 1) (by omega)]
    rw [hcur]
    obtain ⟨k1, k2, k3, k4⟩ := bfs_visit_inv g start d1 t m h1 (by omega) (by omega)
    refine ⟨k1, by rw [k2, h2], le_trans h3 k3, ?_⟩
    intro j hj
    rw [k4 j (by omega), h4 j hj]

/-- The scan of a dequeued index keeps the invariant and completes `cur`. -/
theorem bfs_scan_inv (g : Graph) (start : Nat) (s : BfsState)
    (hf : 0 < s.front) (hinv : ∃ d, BfsInv g start d s 0) :
    (∃ d2, BfsInv g start d2 (bfs_scan g (s.queue (s.front - 1)) s) g.num_compounds) ∧
    (bfs_scan g (s.queue (s.front - 1)) s).front = s.front ∧
    s.rear ≤ (bfs_scan g (s.queue (s.front - 1)) s).rear ∧
    ∀ j, j < s.rear → (bfs_scan g (s.queue (s.front - 1)) s).queue j = s.queue j :=
  bfs_scan_upto g start s hf hinv g.num_compounds (le_refl _)

/-- Taking the front of the queue: the scanned index joins the finished ones. -/
theorem bfs_dequeue_inv (g : Graph) (start : Nat) (d : Nat → Nat) (s : BfsState)
    (h : BfsInv g start d s g.num_compounds) (hlt : s.front < s.rear) :
    BfsInv g start d { s with front := s.front + 1 } 0 := by
  constructor
  · show s.front + 1 ≤ s.rear
    omega
  · exact h.rear_pos
  · exact h.q_zero
  · exact h.d_zero
  · exact h.par_start
  · exact h.in_range
  · exact h.vis_queue
  · exact h.queue_vis
  · exact h.inj
  · intro j h0 hj
    obtain ⟨k, hk1, hk2, hk3⟩ := h.par j h0 hj
    exact ⟨k, Nat.lt_succ_of_lt hk1, hk2, hk3⟩
  · exact h.unvis
  · exact h.mono
  · intro j hj
    show d (s.queue j) ≤ d (s.queue (s.front + 1 - 1)) + 1
    have h1 := h.near j hj
    have h2 := h.mono (s.front - 1) s.front (by omega) hlt
    simp only [Nat.add_sub_cancel]
    omega
  · intro k w hk hkw
    have hk1 : k + 1 < s.front + 1 := hk
    by_cases hk2 : k + 1 < s.front
    · exact h.done k w hk2 hkw
    · have hk3 : k = s.front - 1 := by omega
      have hfp : 0 < s.front := by omega
      have hkw1 : Adj g (s.queue k) w := hkw
      rw [hk3] at hkw1 ⊢
      have hv := h.cur w hkw1.1 hfp hkw1
      refine ⟨hv, ?_⟩
      obtain ⟨j, hj, hjw⟩ := h.queue_vis w hv
      rw [← hjw]
      exact h.near j hj
  · intro w hw
    omega

theorem bfs_rear_le (g : Graph) (start : Nat) (d : Nat → Nat) (s : BfsState) (i : Nat)
    (h : BfsInv g start d s i) : s.rear ≤ g.num_compounds := by
  have hmap : ∀ a ∈ Finset.range s.rear, s.queue a ∈ Finset.range g.num_compounds := by
    intro j hj
    rw [Finset.mem_range] at hj ⊢
    exact h.in_range j hj
  have hinj : Set.InjOn s.queue (Finset.range s.rear : Set Nat) := by
    intro j hj k hk hjk
    rw [Finset.mem_coe, Finset.mem_range] at hj hk
    exact h.inj j k hj hk hjk
  have hcard := Finset.card_le_card_of_injOn s.queue hmap hinj
  simpa using hcard

/-- With fuel for the indices not yet dequeued, the loop of `bfs` ends, either
on dequeuing `end_` or with an empty queue that never held `end_`. -/
theorem bfs_loop_spec (g : Graph) (start end_ : Nat) :
    ∀ fuel s, (∃ d, BfsInv g start d s g.num_compounds) →
      (∀ k, k < s.front → s.queue k ≠ end_) → g.num_compounds ≤ s.front + fuel →
      ∃ t, bfs_loop g end_ fuel s = some t ∧ BfsExit g start end_ t := by
  intro fuel
  induction fuel with
  | zero =>
    intro s ⟨d, h⟩ hne hfuel
    have h1 := bfs_rear_le g start d s _ h
    have h2 := h.front_le
    unfold bfs_loop
    rw [if_neg (by omega)]
    exact ⟨s, rfl, Or.inr ⟨d, h, by omega, hne⟩⟩
  | succ fuel ih =>
    intro s ⟨d, h⟩ hne hfuel
    unfold bfs_loop
    by_cases hlt : s.front < s.rear
    · rw [if_pos hlt]
      simp only
      have hdq := bfs_dequeue_inv g start d s h hlt
      by_cases hend : s.queue s.front = end_
      · rw [if_pos hend]
        refine ⟨_, rfl, Or.inl ⟨d, hdq, Nat.succ_pos _, ?_⟩⟩
        show s.queue (s.front + 1 - 1) = end_
        simpa using hend
      · rw [if_neg hend]
        have hsc := bfs_scan_inv g start { s with front := s.front + 1 }
          (Nat.succ_pos _) ⟨d, hdq⟩
        have hcur : ({ s with front := s.front + 1 } : BfsState).queue
            (({ s with front := s.front + 1 } : BfsState).front - 1) = s.queue s.front := by
          rfl
        rw [hcur] at hsc
        obtain ⟨k1, k2, k3, k4⟩ := hsc
        apply ih _ k1
        · intro k hk
          rw [k2] at hk
          have hk1 : k < s.front + 1 := hk
          have hk2 : k < s.rear := by omega
          have hq : (bfs_scan g (s.queue s.front) { s with front := s.front + 1 }).queue k
              = s.queue k := k4 k hk2
          rw [hq]
          by_cases hkf : k = s.front
          · rw [hkf]
            exact hend
          · exact hne k (by omega)
        · rw [k2]
          show g.num_compounds ≤ s.front + 1 + fuel
          omega
    · rw [if_neg hlt]
      have h2 := h.front_le
      exact ⟨s, rfl, Or.inr ⟨d, h, by omega, hne⟩⟩

/-! ## Breadth-first search: what the final `parent` array gives -/

theorem linked_snoc (R : Nat → Nat → Prop) (y : Nat) :
    ∀ (p : List Nat) (x : Nat), Linked R p → p.getLast? = some x → R x y →
      Linked R (p ++ [y])
  | [], x, _, hl, _ => by simp at hl
  | [a], x, _, hl, hr => by
    simp only [List.getLast?_singleton, Option.some.injEq] at hl
    subst hl
    exact ⟨hr, trivial⟩
  | a :: b :: rest, x, hp, hl, hr => by
    have hl2 : (b :: rest).getLast? = some x := by
      rw [← hl, List.getLast?_cons_cons]
    exact ⟨hp.1, linked_snoc R y (b :: rest) x hp.2 hl2 hr⟩

theorem linked_mono (R S : Nat → Nat → Prop) :
    ∀ (p : List Nat), (∀ u v, u ∈ p → v ∈ p → R u v → S u v) → Linked R p → Linked S p
  | [], _, _ => trivial
  | [_], _, _ => trivial
  | a :: b :: rest, hRS, hp => by
    refine ⟨hRS a b (by simp) (by simp) hp.1, ?_⟩
    exact linked_mono R S (b :: rest)
      (fun u v hu hv => hRS u v (List.mem_cons_of_mem a hu) (List.mem_cons_of_mem a hv)) hp.2

/-- The backward walk from a queued index follows the predecessors to `start`;
read in reverse it is a directed path of `d` edges. -/
theorem walk_back_chain (g : Graph) (start : Nat) (d : Nat → Nat) (s : BfsState) (i : Nat)
    (h : BfsInv g start d s i) :
    ∀ j, j < s.rear → ∀ fuel, j + 1 ≤ fuel → ∀ acc : List Int,
      ∃ p : List Nat,
        walk_back s.parent fuel (s.queue j : Int) acc
          = some (acc ++ p.reverse.map (fun x : Nat => (x : Int))) ∧
        p.length = d (s.queue j) + 1 ∧ p.head? = some start ∧
        p.getLast? = some (s.queue j) ∧ (∀ x ∈ p, x < g.num_compounds) ∧
        Linked (Adj g) p := by
  intro j
  induction j using Nat.strong_induction_on with
  | _ j ih =>
    intro hj fuel hfuel acc
    obtain ⟨f, rfl⟩ : ∃ f, fuel = f + 1 := ⟨fuel - 1, by omega⟩
    have hne : (s.queue j : Int) ≠ -1 := by omega
    unfold walk_back
    rw [if_pos hne, Int.toNat_ofNat]
    by_cases hj0 : j = 0
    · subst hj0
      rw [h.q_zero, h.par_start, walk_back_done]
      refine ⟨[start], by simp, by simp [h.d_zero], rfl, rfl, ?_, trivial⟩
      intro x hx
      simp only [List.mem_singleton] at hx
      rw [hx, ← h.q_zero]
      exact h.in_range 0 hj
    · obtain ⟨k, _, hk2, hk3, hk4, hk5⟩ := h.par j (by omega) hj
      rw [hk3]
      obtain ⟨p, hp1, hp2, hp3, hp4, hp5, hp6⟩ :=
        ih k hk2 (by omega) f (by omega) (acc ++ [(s.queue j : Int)])
      refine ⟨p ++ [s.queue j], ?_, ?_, ?_, ?_, ?_, ?_⟩
      · rw [hp1]
        simp
      · simp [hp2, hk5]
      · cases p with
        | nil => simp at hp3
        | cons a rest => simpa using hp3
      · simp
      · intro x hx
        rcases List.mem_append.1 hx with hx1 | hx1
        · exact hp5 x hx1
        · simp only [List.mem_singleton] at hx1
          rw [hx1]
          exact h.in_range j hj
      · exact linked_snoc (Adj g) (s.queue j) p (s.queue k) hp6 hp4 hk4

/-- Leaving on `end_`: no directed path into `end_` is shorter than its depth. -/
theorem bfs_found_minimal (g : Graph) (start end_ : Nat) (d : Nat → Nat) (s : BfsState)
    (h : BfsInv g start d s 0) (he : s.queue (s.front - 1) = end_) :
    ∀ (p : List Nat) (u : Nat), p.head? = some u → p.getLast? = some end_ →
      Linked (Adj g) p → s.visited u ≠ 0 → d end_ ≤ d u + (p.length - 1)
  | [], u, hh, _, _, _ => by simp at hh
  | [a], u, hh, hl, _, _ => by
    simp only [List.head?_cons, Option.some.injEq] at hh
    simp only [List.getLast?_singleton, Option.some.injEq] at hl
    subst hh hl
    omega
  | a :: b :: rest, u, hh, hl, hp, hv => by
    simp only [List.head?_cons, Option.some.injEq] at hh
    subst hh
    by_cases hlt : d a < d end_
    · obtain ⟨j, hj, hja⟩ := h.queue_vis a hv
      have hjf : j + 1 < s.front := by
        by_contra hge
        have hm := h.mono (s.front - 1) j (by omega) hj
        rw [he, hja] at hm
        omega
      have hab : Adj g (s.queue j) b := by
        rw [hja]
        exact hp.1
      obtain ⟨hvb, hdb⟩ := h.done j b hjf hab
      rw [hja] at hdb
      have hl2 : (b :: rest).getLast? = some end_ := by
        rw [← hl, List.getLast?_cons_cons]
      have ih := bfs_found_minimal g start end_ d s h he (b :: rest) b rfl hl2 hp.2 hvb
      simp only [List.length_cons] at ih ⊢
      omega
    · omega

/-- Leaving with an empty queue: the visited indices are closed under edges. -/
theorem bfs_empty_closed (g : Graph) (start e : Nat) (d : Nat → Nat) (s : BfsState)
    (h : BfsInv g start d s g.num_compounds) (hfr : s.front = s.rear) :
    ∀ (p : List Nat) (u : Nat), p.head? = some u → p.getLast? = some e →
      Linked (Adj g) p → s.visited u ≠ 0 → s.visited e ≠ 0
  | [], u, hh, _, _, _ => by simp at hh
  | [a], u, hh, hl, _, hv => by
    simp only [List.head?_cons, Option.some.injEq] at hh
    simp only [List.getLast?_singleton, Option.some.injEq] at hl
    subst hh hl
    exact hv
  | a :: b :: rest, u, hh, hl, hp, hv => by
    simp only [List.head?_cons, Option.some.injEq] at hh
    subst hh
    obtain ⟨j, hj, hja⟩ := h.queue_vis a hv
    have hab : Adj g (s.queue j) b := by
      rw [hja]
      exact hp.1
    have hvb : s.visited b ≠ 0 := by
      by_cases hjf : j + 1 < s.front
      · exact (h.done j b hjf hab).1
      · have hjeq : j = s.front - 1 := by omega
        rw [hjeq] at hab
        exact h.cur b hab.1 (by omega) hab
    have hl2 : (b :: rest).getLast? = some e := by
      rw [← hl, List.getLast?_cons_cons]
    exact bfs_empty_closed g start e d s h hfr (b :: rest) b rfl hl2 hp.2 hvb

theorem directedPath_linked (g : Graph) (start end_ : Nat) (p : List Nat)
    (h : DirectedPath g start end_ p) : Linked (Adj g) p := by
  obtain ⟨_, _, h3, h4⟩ := h
  exact linked_mono _ _ p (fun u v _ hv huv => ⟨h3 v hv, huv⟩) h4

/-- The summary of `bfs` the claims rest on: on a graph within capacity and
registered indices, `bfs` returns; either `parent[end_]` is `-1`, the indices
differ and no directed path exists, or the backward walk of `getConversionPath`
returns, and reversed it is a directed path from `start` to `end_` that no
directed path undercuts. -/
theorem bfs_core (g : Graph) (start end_ : Nat) (hcap : g.num_compounds ≤ MAX_COMPOUNDS)
    (hs : start < g.num_compounds) (_he : end_ < g.num_compounds) :
    ∃ parent, bfs g start end_ (fun _ => -1) = some parent ∧
      ((parent end_ = -1 ∧ start ≠ end_ ∧ ∀ p, ¬ DirectedPath g start end_ p) ∨
       ((start = end_ ∨ parent end_ ≠ -1) ∧
        ∃ p : List Nat,
          walk_back parent MAX_COMPOUNDS (end_ : Int) [] = some (p.reverse.map (fun x : Nat => (x : Int))) ∧
          DirectedPath g start end_ p ∧
          ∀ q, DirectedPath g start end_ q → p.length ≤ q.length)) := by
  have hinit := bfs_init_inv g start (fun _ => -1) g.num_compounds hs (fun _ => rfl)
  obtain ⟨t, ht, hexit⟩ := bfs_loop_spec g start end_ MAX_COMPOUNDS
    (bfs_init start (fun _ => -1)) ⟨_, hinit⟩
    (by
      intro k hk
      simp [bfs_init] at hk)
    (by
      show g.num_compounds ≤ 0 + MAX_COMPOUNDS
      omega)
  refine ⟨t.parent, by unfold bfs; rw [ht]; rfl, ?_⟩
  rcases hexit with ⟨d, h, hf, hend⟩ | ⟨d, h, hfr, hne⟩
  · right
    have hfl := h.front_le
    have hrl := bfs_rear_le g start d t 0 h
    have hj : t.front - 1 < t.rear := by omega
    constructor
    · by_cases hse : start = end_
      · exact Or.inl hse
      · right
        have hpos : 0 < t.front - 1 := by
          by_contra hz
          have hz0 : t.front - 1 = 0 := by omega
          rw [hz0, h.q_zero] at hend
          exact hse hend
        obtain ⟨k, _, _, hk3, _⟩ := h.par (t.front - 1) hpos hj
        rw [hend] at hk3
        rw [hk3]
        omega
    · obtain ⟨p, hp1, hp2, hp3, hp4, hp5, hp6⟩ :=
        walk_back_chain g start d t 0 h (t.front - 1) hj MAX_COMPOUNDS (by omega) []
      rw [hend] at hp1 hp2 hp4
      refine ⟨p, by simpa using hp1, ⟨hp3, hp4, hp5, ?_⟩, ?_⟩
      · exact linked_mono _ _ p (fun u v _ _ huv => huv.2) hp6
      · intro q hq
        have hmin := bfs_found_minimal g start end_ d t h hend q start hq.1 hq.2.1
          (directedPath_linked g start end_ q hq)
          (by
            rw [← h.q_zero]
            exact h.vis_queue 0 h.rear_pos)
        rw [h.d_zero] at hmin
        have hqpos : 0 < q.length := by
          cases q with
          | nil => simp [DirectedPath] at hq
          | cons a rest => simp
        omega
  · left
    have hvis : t.visited end_ = 0 := by
      by_contra hv
      obtain ⟨j, hj, hje⟩ := h.queue_vis end_ hv
      exact hne j (by omega) hje
    refine ⟨h.unvis end_ hvis, ?_, ?_⟩
    · intro hse
      apply hne 0 (by have := h.rear_pos; omega)
      rw [h.q_zero]
      exact hse
    · intro p hp
      apply bfs_empty_closed g start end_ d t h hfr p start hp.1 hp.2.1
        (directedPath_linked g start end_ p hp)
        (by
          rw [← h.q_zero]
          exact h.vis_queue 0 h.rear_pos)
      exact hvis

/-! ## The found-branch of the handler -/

theorem getConversionPath_of_walk (g : Graph) (parent : Nat → Int) (start end_ : Int)
    (reactions : List Reaction) (p : List Nat)
    (h : walk_back parent MAX_COMPOUNDS end_ [] = some (p.reverse.map (fun x : Nat => (x : Int)))) :
    getConversionPath g parent start end_ reactions
      = some (path_text g reactions (p.map (fun x : Nat => (x : Int))), p.map (fun x : Nat => (x : Int))) := by
  unfold getConversionPath
  rw [h]
  simp only [List.map_reverse, List.reverse_reverse]

/-- The two ways the found-branch of the handler ends, on a graph within
capacity and registered indices. -/
theorem search_found_spec (g : Graph) (reactions : List Reaction) (start end_ : Nat)
    (hcap : g.num_compounds ≤ MAX_COMPOUNDS)
    (hs : start < g.num_compounds) (he : end_ < g.num_compounds) :
    ∃ parent, bfs g start end_ (fun _ => -1) = some parent ∧
      ((start ≠ end_ ∧ parent end_ = -1 ∧
        search_found_with bfs g reactions (start : Int) (end_ : Int) = some (msgNoPath, []) ∧
        ∀ p, ¬ DirectedPath g start end_ p) ∨
       (¬ (start ≠ end_ ∧ parent end_ = -1) ∧
        ∃ p : List Nat,
          getConversionPath g parent (start : Int) (end_ : Int) reactions
            = some (path_text g reactions (p.map (fun x : Nat => (x : Int))),
                p.map (fun x : Nat => (x : Int))) ∧
          search_found_with bfs g reactions (start : Int) (end_ : Int)
            = some (path_text g reactions (p.map (fun x : Nat => (x : Int))),
                p.map (fun x : Nat => (x : Int))) ∧
          DirectedPath g start end_ p ∧
          ∀ q, DirectedPath g start end_ q → p.length ≤ q.length)) := by
  obtain ⟨parent, hb, hcase⟩ := bfs_core g start end_ hcap hs he
  refine ⟨parent, hb, ?_⟩
  rcases hcase with ⟨h1, h2, h3⟩ | ⟨h1, p, hp1, hp2, hp3⟩
  · left
    refine ⟨h2, h1, ?_, h3⟩
    unfold search_found_with
    simp only [Int.toNat_ofNat, hb]
    rw [if_pos ⟨by omega, h1⟩]
  · right
    have hnot : ¬ (start ≠ end_ ∧ parent end_ = -1) := by
      rintro ⟨k1, k2⟩
      rcases h1 with h1 | h1
      · exact k1 h1
      · exact h1 k2
    have hg := getConversionPath_of_walk g parent (start : Int) (end_ : Int) reactions p hp1
    refine ⟨hnot, p, hg, ?_, hp2, hp3⟩
    unfold search_found_with
    simp only [Int.toNat_ofNat, hb]
    rw [if_neg, hg]
    rintro ⟨k1, k2⟩
    exact hnot ⟨by omega, k2⟩

theorem directedPath_ne_nil (g : Graph) (start end_ : Nat) (p : List Nat)
    (h : DirectedPath g start end_ p) : p ≠ [] := by
  intro hp
  rw [hp] at h
  simp [DirectedPath] at h

theorem load_adjacency_bit (triples : List Reaction) :
    ∀ u v, (load triples).graph.adjacency u v = 0 ∨ (load triples).graph.adjacency u v = 1 := by
  intro u v
  rw [(load_graph_spec triples).2.2 u v]
  split
  · exact Or.inr rfl
  · exact Or.inl rfl

/-- C3 (no path exactly when unreachable): on a graph within capacity, for
registered indices `start ≠ end_`, `bfs` run on an all `-1` array returns;
`parent[end_]` is still `-1` exactly when no directed path leads from `start` to
`end_`; the handler answers the no-path text with an empty path exactly in that
case; and when a directed path exists the handler returns a directed path. -/
theorem no_path_iff_unreachable (g : Graph) (reactions : List Reaction) (start end_ : Nat)
    (hcap : g.num_compounds ≤ MAX_COMPOUNDS)
    (hs : start < g.num_compounds) (he : end_ < g.num_compounds) (hne : start ≠ end_) :
    ∃ parent, bfs g start end_ (fun _ => -1) = some parent ∧
      (parent end_ = -1 ↔ ¬ ∃ p, DirectedPath g start end_ p) ∧
      (search_found_with bfs g reactions (start : Int) (end_ : Int)
          = some ("No conversion path found.", []) ↔
        ¬ ∃ p, DirectedPath g start end_ p) ∧
      ((∃ p, DirectedPath g start end_ p) →
        ∃ (text : String) (p : List Nat),
          search_found_with bfs g reactions (start : Int) (end_ : Int)
            = some (text, p.map (fun x : Nat => (x : Int))) ∧
          DirectedPath g start end_ p) := by
  obtain ⟨parent, hb, hcase⟩ := search_found_spec g reactions start end_ hcap hs he
  refine ⟨parent, hb, ?_⟩
  rcases hcase with ⟨_, h2, h3, h4⟩ | ⟨h1, p, _, hp2, hp3, _⟩
  · refine ⟨?_, ?_, ?_⟩
    · constructor
      · rintro _ ⟨p, hp⟩
        exact h4 p hp
      · intro _
        exact h2
    · constructor
      · rintro _ ⟨p, hp⟩
        exact h4 p hp
      · intro _
        exact h3
    · rintro ⟨p, hp⟩
      exact absurd hp (h4 p)
  · have hpar : parent end_ ≠ -1 := fun hk => h1 ⟨hne, hk⟩
    refine ⟨?_, ?_, ?_⟩
    · constructor
      · intro hk
        exact absurd hk hpar
      · intro hno
        exact absurd ⟨p, hp3⟩ hno
    · constructor
      · intro hk
        rw [hp2] at hk
        have hnil : p.map (fun x : Nat => (x : Int)) = [] := by
          injection hk with hk
          exact (Prod.mk.inj hk).2
        exact absurd (List.map_eq_nil_iff.1 hnil) (directedPath_ne_nil g start end_ p hp3)
      · intro hno
        exact absurd ⟨p, hp3⟩ hno
    · intro _
      exact ⟨_, p, hp2, hp3⟩

theorem no_path_iff_unreachable_witness :
    (load oxidationTriples).graph.num_compounds ≤ MAX_COMPOUNDS ∧
    4 < (load oxidationTriples).graph.num_compounds ∧
    1 < (load oxidationTriples).graph.num_compounds ∧ (4 : Nat) ≠ 1 ∧
    ∃ parent, bfs (load oxidationTriples).graph 4 1 (fun _ => -1) = some parent ∧
      (parent 1 = -1 ↔ ¬ ∃ p, DirectedPath (load oxidationTriples).graph 4 1 p) :=
  ⟨by decide, by decide, by decide, by decide,
   (no_path_iff_unreachable (load oxidationTriples).graph (load oxidationTriples).reactions 4 1
      (by decide) (by decide) (by decide) (by decide)).imp (fun _ h => ⟨h.1, h.2.1⟩)⟩

/-- C2 (path validity): on a graph within capacity whose matrix entries are `0`
or `1`, for registered indices, `bfs` on an all `-1` array returns, and unless
the handler's no-path test `start ≠ end_ ∧ parent[end_] = -1` holds,
`getConversionPath` returns an index sequence that is non-empty, begins with
`start`, ends with `end_`, stays below `num_compounds`, and has
`adjacency[u][v] = 1` for every consecutive pair; it is what the handler
returns. -/
theorem path_valid (g : Graph) (reactions : List Reaction) (start end_ : Nat)
    (hcap : g.num_compounds ≤ MAX_COMPOUNDS)
    (hbit : ∀ u v, g.adjacency u v = 0 ∨ g.adjacency u v = 1)
    (hs : start < g.num_compounds) (he : end_ < g.num_compounds) :
    ∃ parent, bfs g start end_ (fun _ => -1) = some parent ∧
      (¬ (start ≠ end_ ∧ parent end_ = -1) →
        ∃ (text : String) (p : List Nat),
          getConversionPath g parent (start : Int) (end_ : Int) reactions
            = some (text, p.map (fun x : Nat => (x : Int))) ∧
          search_found_with bfs g reactions (start : Int) (end_ : Int)
            = some (text, p.map (fun x : Nat => (x : Int))) ∧
          p ≠ [] ∧ p.head? = some start ∧ p.getLast? = some end_ ∧
          (∀ x ∈ p, x < g.num_compounds) ∧
          Linked (fun u v => g.adjacency u v = 1) p) := by
  obtain ⟨parent, hb, hcase⟩ := search_found_spec g reactions start end_ hcap hs he
  refine ⟨parent, hb, ?_⟩
  intro hfound
  rcases hcase with ⟨h1, h2, _⟩ | ⟨_, p, hp1, hp2, hp3, _⟩
  · exact absurd ⟨h1, h2⟩ hfound
  · refine ⟨_, p, hp1, hp2, directedPath_ne_nil g start end_ p hp3, hp3.1, hp3.2.1,
      hp3.2.2.1, ?_⟩
    refine linked_mono _ _ p ?_ hp3.2.2.2
    intro u v _ _ huv
    rcases hbit u v with h0 | h1
    · exact absurd h0 huv
    · exact h1

theorem path_valid_witness :
    (load oxidationTriples).graph.num_compounds ≤ MAX_COMPOUNDS ∧
    (∀ u v, (load oxidationTriples).graph.adjacency u v = 0 ∨
      (load oxidationTriples).graph.adjacency u v = 1) ∧
    1 < (load oxidationTriples).graph.num_compounds ∧
    4 < (load oxidationTriples).graph.num_compounds ∧
    ∃ parent, bfs (load oxidationTriples).graph 1 4 (fun _ => -1) = some parent ∧
      (¬ ((1 : Nat) ≠ 4 ∧ parent 4 = -1) →
        ∃ (text : String) (p : List Nat),
          getConversionPath (load oxidationTriples).graph parent ((1 : Nat) : Int)
            ((4 : Nat) : Int) (load oxidationTriples).reactions
            = some (text, p.map (fun x : Nat => (x : Int))) ∧
          p ≠ [] ∧ p.head? = some 1 ∧ p.getLast? = some 4 ∧
          Linked (fun u v => (load oxidationTriples).graph.adjacency u v = 1) p) :=
  ⟨by decide, load_adjacency_bit oxidationTriples, by decide, by decide,
   (path_valid (load oxidationTriples).graph (load oxidationTriples).reactions 1 4
      (by decide) (load_adjacency_bit oxidationTriples) (by decide) (by decide)).imp
     (fun _ h => ⟨h.1, fun hf => (h.2 hf).imp (fun _ k => k.imp
       (fun _ m => ⟨m.1, m.2.2.1, m.2.2.2.1, m.2.2.2.2.1, m.2.2.2.2.2.2⟩))⟩)⟩

/-- C1 (minimality): in the graph the loader builds from triples with at most
`MAX_COMPOUNDS` distinct names, for registered indices the found-branch of the
handler returns; when it returns a path (a non-empty index sequence) that path
is a directed path from `start` to `end_` whose number of edges is at most the
number of edges of every directed path from `start` to `end_`, so it is the
least such number. -/
theorem path_minimal (triples : List Reaction)
    (hcap : (compoundNames triples).toFinset.card ≤ MAX_COMPOUNDS) (start end_ : Nat)
    (hs : start < (load triples).graph.num_compounds)
    (he : end_ < (load triples).graph.num_compounds) :
    ∃ (text : String) (pathIndices : List Int),
      search_found_with bfs (load triples).graph (load triples).reactions
        (start : Int) (end_ : Int) = some (text, pathIndices) ∧
      (pathIndices ≠ [] →
        ∃ p : List Nat, pathIndices = p.map (fun x : Nat => (x : Int)) ∧
          DirectedPath (load triples).graph start end_ p ∧
          ∀ q, DirectedPath (load triples).graph start end_ q →
            pathIndices.length - 1 ≤ q.length - 1) := by
  have hn : (load triples).graph.num_compounds ≤ MAX_COMPOUNDS :=
    le_trans (load_graph_spec triples).2.1 hcap
  obtain ⟨parent, _, hcase⟩ :=
    search_found_spec (load triples).graph (load triples).reactions start end_ hn hs he
  rcases hcase with ⟨_, _, h3, _⟩ | ⟨_, p, _, hp2, hp3, hp4⟩
  · exact ⟨_, _, h3, fun hk => absurd rfl hk⟩
  · refine ⟨_, _, hp2, fun _ => ⟨p, rfl, hp3, ?_⟩⟩
    intro q hq
    have := hp4 q hq
    simp only [List.length_map]
    omega

theorem path_minimal_witness :
    (compoundNames oxidationTriples).toFinset.card ≤ MAX_COMPOUNDS ∧
    1 < (load oxidationTriples).graph.num_compounds ∧
    4 < (load oxidationTriples).graph.num_compounds ∧
    ∃ (text : String) (pathIndices : List Int),
      search_found_with bfs (load oxidationTriples).graph (load oxidationTriples).reactions
        ((1 : Nat) : Int) ((4 : Nat) : Int) = some (text, pathIndices) ∧
      (pathIndices ≠ [] →
        ∃ p : List Nat, pathIndices = p.map (fun x : Nat => (x : Int)) ∧
          DirectedPath (load oxidationTriples).graph 1 4 p ∧
          ∀ q, DirectedPath (load oxidationTriples).graph 1 4 q →
            pathIndices.length - 1 ≤ q.length - 1) :=
  ⟨by decide, by decide, by decide,
   path_minimal oxidationTriples (by decide) 1 4 (by decide) (by decide)⟩

/-! ## The default reactions -/

/-- C15, what the code does: when `reactions.txt` cannot be opened the four
default reactions are in the catalog, but no compound is registered and the
matrix stays zero, and the search with the default inputs `CH4`, `CO2` answers
that a compound was not found. -/
theorem default_dataset_not_registered :
    load_default.reactions = oxidationTriples ∧
    load_default.graph.num_compounds = 0 ∧
    (∀ u v, load_default.graph.adjacency u v = 0) ∧
    find_compound_index load_default.graph "CH4" = -1 ∧
    search load_default.graph load_default.reactions "CH4" "CO2"
      = some ("Start or end compound not found in the graph.", []) := by
  refine ⟨rfl, by decide, ?_, by decide, by decide⟩
  intro u v
  obtain ⟨h1, _, h3⟩ := build_adjacency_spec oxidationTriples emptyGraph emptyGraph_distinct
  show (build_adjacency emptyGraph oxidationTriples).adjacency u v = 0
  rw [h3 u v, if_neg]
  · rfl
  · rintro ⟨hu, _⟩
    exact absurd hu (Nat.not_lt_zero u)

/-! ## Capacity -/

theorem add_compound_at_capacity (g : Graph) (c : String)
    (hfull : g.num_compounds = MAX_COMPOUNDS) (hnew : find_compound_index g c = -1) :
    (add_compound g c).2 = 1 ∧
    (add_compound g c).1.num_compounds = MAX_COMPOUNDS + 1 ∧
    (add_compound g c).1.compounds MAX_COMPOUNDS = c := by
  rw [add_compound_new g c hnew]
  refine ⟨rfl, ?_, ?_⟩
  · show g.num_compounds + 1 = MAX_COMPOUNDS + 1
    rw [hfull]
  · show setAt g.compounds g.num_compounds c MAX_COMPOUNDS = c
    rw [hfull, setAt_same]

set_option maxRecDepth 100000 in
/-- C12, what the code does: loading fifty-one triples over 102 different short
names leaves `num_compounds = 102`, above `MAX_COMPOUNDS`, with the 101st name
stored at index 100; `add_compound` has no capacity test. -/
theorem load_exceeds_capacity :
    overflowTriples.length = 51 ∧
    (∀ r ∈ overflowTriples,
      r.reactant.length < MAX_NAME_LEN ∧ r.product.length < MAX_NAME_LEN) ∧
    (load overflowTriples).graph.num_compounds = 102 ∧
    MAX_COMPOUNDS < (load overflowTriples).graph.num_compounds ∧
    (load overflowTriples).graph.compounds 100 = compoundName 101 ∧
    (load overflowTriples).graph.compounds 101 = compoundName 100 := by
  decide

/-! ## Index order of the registry -/

theorem regList_length (g : Graph) : (regList g).length = g.num_compounds := by
  simp [regList]

theorem walk_back_more_fuel (parent : Nat → Int) :
    ∀ (fuel : Nat) (current : Int) (acc r : List Int),
      walk_back parent fuel current acc = some r →
      ∀ extra, walk_back parent (fuel + extra) current acc = some r := by
  intro fuel
  induction fuel with
  | zero =>
    intro current acc r h extra
    unfold walk_back at h
    by_cases hc : current ≠ -1
    · rw [if_pos hc] at h
      exact absurd h (by simp)
    · rw [if_neg hc] at h
      have hc2 : current = -1 := by omega
      rw [hc2, walk_back_done]
      exact h
  | succ fuel ih =>
    intro current acc r h extra
    have hsum : fuel + 1 + extra = (fuel + extra) + 1 := by omega
    rw [hsum]
    unfold walk_back at h ⊢
    by_cases hc : current ≠ -1
    · rw [if_pos hc] at h ⊢
      exact ih _ _ _ h extra
    · rw [if_neg hc] at h ⊢
      exact h

/-- The backward walk from a queued index: it ends within `d + 1` pushes, and
the indices it pushes are pairwise different predecessors of one another. -/
theorem walk_back_chain_nodup (g : Graph) (start : Nat) (d : Nat → Nat) (s : BfsState) (i : Nat)
    (h : BfsInv g start d s i) :
    ∀ j, j < s.rear → d (s.queue j) ≤ j ∧
      ∀ fuel, d (s.queue j) + 1 ≤ fuel → ∀ acc : List Int,
        ∃ p : List Nat,
          walk_back s.parent fuel (s.queue j : Int) acc
            = some (acc ++ p.reverse.map (fun x : Nat => (x : Int))) ∧
          p.length = d (s.queue j) + 1 ∧ p.head? = some start ∧
          p.getLast? = some (s.queue j) ∧
          (∀ x ∈ p, d x ≤ d (s.queue j)) ∧ p.Nodup ∧
          Linked (fun a b => s.parent b = (a : Int)) p := by
  intro j
  induction j using Nat.strong_induction_on with
  | _ j ih =>
    intro hj
    by_cases hj0 : j = 0
    · subst hj0
      rw [h.q_zero, h.d_zero]
      refine ⟨le_refl _, ?_⟩
      intro fuel hfuel acc
      obtain ⟨f, rfl⟩ : ∃ f, fuel = f + 1 := ⟨fuel - 1, by omega⟩
      have hne : (start : Int) ≠ -1 := by omega
      unfold walk_back
      rw [if_pos hne, Int.toNat_ofNat, h.par_start, walk_back_done]
      refine ⟨[start], by simp, rfl, rfl, rfl, ?_, List.nodup_singleton _, trivial⟩
      intro x hx
      rw [List.mem_singleton] at hx
      rw [hx, h.d_zero]
    · obtain ⟨k, _, hk2, hk3, _, hk5⟩ := h.par j (by omega) hj
      obtain ⟨hdk, hwalk⟩ := ih k hk2 (by omega)
      refine ⟨by omega, ?_⟩
      intro fuel hfuel acc
      obtain ⟨f, rfl⟩ : ∃ f, fuel = f + 1 := ⟨fuel - 1, by omega⟩
      have hne : (s.queue j : Int) ≠ -1 := by omega
      unfold walk_back
      rw [if_pos hne, Int.toNat_ofNat, hk3]
      obtain ⟨p, hp1, hp2, hp3, hp4, hp5, hp6, hp7⟩ :=
        hwalk f (by omega) (acc ++ [(s.queue j : Int)])
      refine ⟨p ++ [s.queue j], ?_, ?_, ?_, ?_, ?_, ?_, ?_⟩
      · rw [hp1]
        simp
      · simp [hp2, hk5]
      · cases p with
        | nil => simp at hp3
        | cons a rest => simpa using hp3
      · simp
      · intro x hx
        rcases List.mem_append.1 hx with hx1 | hx1
        · have := hp5 x hx1
          omega
        · rw [List.mem_singleton] at hx1
          rw [hx1]
      · rw [List.nodup_append]
        refine ⟨hp6, List.nodup_singleton _, ?_⟩
        intro x hx hx2
        rw [List.mem_singleton] at hx2
        have := hp5 x hx
        rw [hx2] at this
        omega
      · exact linked_snoc _ (s.queue j) p (s.queue k) hp7 hp4 hk3

theorem bfs_exit_inv (g : Graph) (start end_ : Nat) (t : BfsState)
    (h : BfsExit g start end_ t) : ∃ d i, BfsInv g start d t i := by
  rcases h with ⟨d, h, _⟩ | ⟨d, h, _⟩
  · exact ⟨d, 0, h⟩
  · exact ⟨d, _, h⟩

theorem bfs_returns (g : Graph) (start end_ : Nat) (hcap : g.num_compounds ≤ MAX_COMPOUNDS)
    (hs : start < g.num_compounds) :
    ∃ t, bfs_loop g end_ MAX_COMPOUNDS (bfs_init start (fun _ => -1)) = some t ∧
      bfs g start end_ (fun _ => -1) = some t.parent ∧ BfsExit g start end_ t := by
  have hinit := bfs_init_inv g start (fun _ => -1) g.num_compounds hs (fun _ => rfl)
  obtain ⟨t, ht, hexit⟩ := bfs_loop_spec g start end_ MAX_COMPOUNDS
    (bfs_init start (fun _ => -1)) ⟨_, hinit⟩
    (by
      intro k hk
      simp [bfs_init] at hk)
    (by
      show g.num_compounds ≤ 0 + MAX_COMPOUNDS
      omega)
  exact ⟨t, ht, by unfold bfs; rw [ht]; rfl, hexit⟩

/-- C19 (the reconstruction ends): on a graph within capacity and registered
`start`, `end_`, `bfs` on an all `-1` array returns a `parent` array such that
the backward walk from any index reaches `-1` within `num_compounds` pushes (so
also within the `MAX_COMPOUNDS` of the fuel), the indices pushed follow
`parent`, are pairwise different and at most `num_compounds` many, the walk
stops at an index whose predecessor is `-1`, and from a visited index (`start`
or one with a predecessor) that index is `start`. -/
theorem reconstruction_terminates (g : Graph) (start end_ : Nat)
    (hcap : g.num_compounds ≤ MAX_COMPOUNDS)
    (hs : start < g.num_compounds) (he : end_ < g.num_compounds) :
    ∃ parent, bfs g start end_ (fun _ => -1) = some parent ∧
      ∀ v : Nat, ∃ p : List Nat,
        walk_back parent g.num_compounds (v : Int) []
          = some (p.reverse.map (fun x : Nat => (x : Int))) ∧
        walk_back parent MAX_COMPOUNDS (v : Int) []
          = some (p.reverse.map (fun x : Nat => (x : Int))) ∧
        p.length ≤ g.num_compounds ∧ p.Nodup ∧ p.getLast? = some v ∧
        Linked (fun a b => parent b = (a : Int)) p ∧
        (∃ w, p.head? = some w ∧ parent w = -1) ∧
        ((v = start ∨ parent v ≠ -1) → p.head? = some start) := by
  obtain ⟨t, _, hb, hexit⟩ := bfs_returns g start end_ hcap hs
  obtain ⟨d, i, h⟩ := bfs_exit_inv g start end_ t hexit
  have hrear := bfs_rear_le g start d t i h
  refine ⟨t.parent, hb, ?_⟩
  intro v
  have hextra : MAX_COMPOUNDS = g.num_compounds + (MAX_COMPOUNDS - g.num_compounds) := by
    omega
  by_cases hv : t.visited v = 0
  · have hpar := h.unvis v hv
    have hvs : v ≠ start := by
      intro hvs
      rw [hvs, ← h.q_zero] at hv
      exact h.vis_queue 0 h.rear_pos hv
    obtain ⟨f, hf⟩ : ∃ f, g.num_compounds = f + 1 := ⟨g.num_compounds - 1, by omega⟩
    have hne : (v : Int) ≠ -1 := by omega
    have hw : walk_back t.parent g.num_compounds (v : Int) []
        = some (([v] : List Nat).reverse.map (fun x : Nat => (x : Int))) := by
      rw [hf]
      unfold walk_back
      rw [if_pos hne, Int.toNat_ofNat, hpar, walk_back_done]
      rfl
    refine ⟨[v], hw, ?_, by simp; omega, List.nodup_singleton _, rfl, trivial,
      ⟨v, rfl, hpar⟩, ?_⟩
    · rw [hextra]
      exact walk_back_more_fuel _ _ _ _ _ hw _
    · rintro (h1 | h1)
      · exact absurd h1 hvs
      · exact absurd hpar h1
  · obtain ⟨j, hj, hjv⟩ := h.queue_vis v hv
    obtain ⟨hdj, hwalk⟩ := walk_back_chain_nodup g start d t i h j hj
    obtain ⟨p, hp1, hp2, hp3, hp4, _, hp6, hp7⟩ := hwalk g.num_compounds (by omega) []
    rw [hjv] at hp1 hp2 hp4 hdj
    rw [List.nil_append] at hp1
    refine ⟨p, hp1, ?_, by omega, hp6, hp4, hp7, ⟨start, hp3, h.par_start⟩, fun _ => hp3⟩
    rw [hextra]
    exact walk_back_more_fuel _ _ _ _ _ hp1 _

theorem reconstruction_terminates_witness :
    (load oxidationTriples).graph.num_compounds ≤ MAX_COMPOUNDS ∧
    1 < (load oxidationTriples).graph.num_compounds ∧
    4 < (load oxidationTriples).graph.num_compounds ∧
    ∃ parent, bfs (load oxidationTriples).graph 1 4 (fun _ => -1) = some parent ∧
      ∀ v : Nat, ∃ p : List Nat,
        walk_back parent (load oxidationTriples).graph.num_compounds (v : Int) []
          = some (p.reverse.map (fun x : Nat => (x : Int))) ∧
        p.length ≤ (load oxidationTriples).graph.num_compounds ∧ p.Nodup :=
  ⟨by decide, by decide, by decide,
   (reconstruction_terminates (load oxidationTriples).graph 1 4 (by decide) (by decide)
      (by decide)).imp
     (fun _ h => ⟨h.1, fun v => (h.2 v).imp (fun _ k => ⟨k.1, k.2.2.1, k.2.2.2.1⟩)⟩)⟩

/-! ## The queue stays in bounds -/

theorem bfs_rear_lt (g : Graph) (start : Nat) (d : Nat → Nat) (s : BfsState) (i v : Nat)
    (h : BfsInv g start d s i) (hv : v < g.num_compounds) (hu : s.visited v = 0) :
    s.rear < g.num_compounds := by
  have hmap : ∀ a ∈ Finset.range s.rear,
      s.queue a ∈ (Finset.range g.num_compounds).erase v := by
    intro j hj
    rw [Finset.mem_range] at hj
    rw [Finset.mem_erase, Finset.mem_range]
    refine ⟨?_, h.in_range j hj⟩
    intro hjv
    apply h.vis_queue j hj
    rw [hjv]
    exact hu
  have hinj : Set.InjOn s.queue (Finset.range s.rear : Set Nat) := by
    intro j hj k hk hjk
    rw [Finset.mem_coe, Finset.mem_range] at hj hk
    exact h.inj j k hj hk hjk
  have hcard := Finset.card_le_card_of_injOn s.queue hmap hinj
  rw [Finset.card_range, Finset.card_erase_of_mem (Finset.mem_range.2 hv),
    Finset.card_range] at hcard
  omega

theorem queueSafe_of_inv (g : Graph) (start : Nat) (d : Nat → Nat) (s : BfsState) (i : Nat)
    (hcap : g.num_compounds ≤ MAX_COMPOUNDS) (h : BfsInv g start d s i) : QueueSafe g s := by
  have hrear := bfs_rear_le g start d s i h
  refine ⟨h.front_le, hrear, ?_, ?_, h.in_range, h.inj⟩
  · intro hlt
    exact ⟨by omega, h.in_range _ hlt⟩
  · intro c v hv hcond
    have hlt := bfs_rear_lt g start d s i v h hv hcond.2
    refine ⟨by omega, ?_⟩
    rw [bfs_visit_take g c s v hcond]
    exact setAt_same _ _ _

theorem bfs_states_inv (g : Graph) (start end_ : Nat) :
    ∀ fuel s, (∃ d, BfsInv g start d s g.num_compounds) →
      ∀ t ∈ bfs_states g end_ fuel s, ∃ d i, BfsInv g start d t i := by
  intro fuel
  induction fuel with
  | zero =>
    intro s ⟨d, h⟩ t ht
    simp only [bfs_states, List.mem_singleton] at ht
    rw [ht]
    exact ⟨d, _, h⟩
  | succ fuel ih =>
    intro s ⟨d, h⟩ t ht
    unfold bfs_states at ht
    by_cases hlt : s.front < s.rear
    · rw [if_pos hlt] at ht
      simp only at ht
      have hdq := bfs_dequeue_inv g start d s h hlt
      by_cases hend : s.queue s.front = end_
      · rw [if_pos hend] at ht
        simp only [List.mem_cons, List.mem_singleton, List.not_mem_nil, or_false] at ht
        rcases ht with ht | ht
        · rw [ht]
          exact ⟨d, _, h⟩
        · rw [ht]
          exact ⟨d, 0, hdq⟩
      · rw [if_neg hend] at ht
        rcases List.mem_cons.1 ht with ht | ht
        · rw [ht]
          exact ⟨d, _, h⟩
        · rcases List.mem_append.1 ht with ht | ht
          · unfold bfs_scan_states at ht
            rw [List.mem_map] at ht
            obtain ⟨m, hm, hmt⟩ := ht
            rw [List.mem_range] at hm
            obtain ⟨⟨d2, h2⟩, _⟩ := bfs_scan_upto g start { s with front := s.front + 1 }
              (Nat.succ_pos _) ⟨d, hdq⟩ m (by omega)
            rw [← hmt]
            exact ⟨d2, m, h2⟩
          · have hsc := (bfs_scan_inv g start { s with front := s.front + 1 }
              (Nat.succ_pos _) ⟨d, hdq⟩).1
            exact ih _ hsc t ht
    · rw [if_neg hlt] at ht
      rw [List.mem_singleton] at ht
      rw [ht]
      exact ⟨d, _, h⟩

theorem bfs_loop_mem_states (g : Graph) (end_ : Nat) :
    ∀ fuel s t, bfs_loop g end_ fuel s = some t → t ∈ bfs_states g end_ fuel s := by
  intro fuel
  induction fuel with
  | zero =>
    intro s t h
    unfold bfs_loop at h
    unfold bfs_states
    by_cases hlt : s.front < s.rear
    · rw [if_pos hlt] at h
      exact absurd h (by simp)
    · rw [if_neg hlt] at h
      injection h with h
      rw [h]
      exact List.mem_singleton_self _
  | succ fuel ih =>
    intro s t h
    unfold bfs_loop at h
    unfold bfs_states
    by_cases hlt : s.front < s.rear
    · rw [if_pos hlt] at h ⊢
      simp only at h ⊢
      by_cases hend : s.queue s.front = end_
      · rw [if_pos hend] at h ⊢
        injection h with h
        rw [← h]
        simp
      · rw [if_neg hend] at h ⊢
        exact List.mem_cons_of_mem _ (List.mem_append_right _ (ih _ _ h))
    · rw [if_neg hlt] at h ⊢
      injection h with h
      rw [h]
      exact List.mem_singleton_self _

/-- C20 (the queue stays in bounds): on a graph within capacity and a registered
`start`, `bfs` returns, its final state is among the states it passes through,
and in every such state `front <= rear <= num_compounds`, the read
`queue[front]` and every write `queue[rear]` of the scan use an index below
`MAX_COMPOUNDS`, every queued value is an index below `num_compounds`, and no
index is queued twice. -/
theorem queue_in_bounds (g : Graph) (start end_ : Nat)
    (hcap : g.num_compounds ≤ MAX_COMPOUNDS) (hs : start < g.num_compounds) :
    (∃ t, bfs_loop g end_ MAX_COMPOUNDS (bfs_init start (fun _ => -1)) = some t ∧
      t ∈ bfs_states g end_ MAX_COMPOUNDS (bfs_init start (fun _ => -1))) ∧
    ∀ t ∈ bfs_states g end_ MAX_COMPOUNDS (bfs_init start (fun _ => -1)), QueueSafe g t := by
  obtain ⟨t, ht, _, _⟩ := bfs_returns g start end_ hcap hs
  refine ⟨⟨t, ht, bfs_loop_mem_states g end_ _ _ _ ht⟩, ?_⟩
  intro u hu
  have hinit := bfs_init_inv g start (fun _ => -1) g.num_compounds hs (fun _ => rfl)
  obtain ⟨d, i, h⟩ := bfs_states_inv g start end_ MAX_COMPOUNDS _ ⟨_, hinit⟩ u hu
  exact queueSafe_of_inv g start d u i hcap h

theorem queue_in_bounds_witness :
    (load oxidationTriples).graph.num_compounds ≤ MAX_COMPOUNDS ∧
    1 < (load oxidationTriples).graph.num_compounds ∧
    ∀ t ∈ bfs_states (load oxidationTriples).graph 4 MAX_COMPOUNDS
        (bfs_init 1 (fun _ => -1)), QueueSafe (load oxidationTriples).graph t :=
  ⟨by decide, by decide,
   (queue_in_bounds (load oxidationTriples).graph 1 4 (by decide) (by decide)).2⟩

/-! ## The early exit -/

theorem keeps_refl (s : BfsState) : Keeps s s :=
  fun _ hv => ⟨hv, rfl⟩

theorem keeps_trans (s t u : BfsState) (h1 : Keeps s t) (h2 : Keeps t u) : Keeps s u := by
  intro v hv
  obtain ⟨k1, k2⟩ := h1 v hv
  obtain ⟨k3, k4⟩ := h2 v k1
  exact ⟨k3, k4.trans k2⟩

theorem keeps_visit (g : Graph) (c : Nat) (s : BfsState) (i : Nat) :
    Keeps s (bfs_visit g c s i) := by
  by_cases hc : g.adjacency c i ≠ 0 ∧ s.visited i = 0
  · rw [bfs_visit_take g c s i hc]
    intro v hv
    have hvi : v ≠ i := by
      intro hvi
      rw [hvi] at hv
      exact hv hc.2
    exact ⟨by show setAt s.visited i 1 v ≠ 0; rw [setAt_other _ _ _ _ hvi]; exact hv,
      setAt_other _ _ _ _ hvi⟩
  · rw [bfs_visit_skip g c s i hc]
    exact keeps_refl s

theorem keeps_foldl (g : Graph) (c : Nat) (l : List Nat) :
    ∀ s, Keeps s (l.foldl (bfs_visit g c) s) := by
  induction l with
  | nil => exact fun s => keeps_refl s
  | cons i rest ih =>
    intro s
    exact keeps_trans _ _ _ (keeps_visit g c s i) (ih (bfs_visit g c s i))

theorem keeps_scan (g : Graph) (c : Nat) (s : BfsState) : Keeps s (bfs_scan g c s) :=
  keeps_foldl g c _ s

theorem keeps_loop_full (g : Graph) :
    ∀ fuel s r, bfs_loop_full g fuel s = some r → Keeps s r := by
  intro fuel
  induction fuel with
  | zero =>
    intro s r h
    unfold bfs_loop_full at h
    by_cases hlt : s.front < s.rear
    · rw [if_pos hlt] at h
      exact absurd h (by simp)
    · rw [if_neg hlt] at h
      injection h with h
      rw [← h]
      exact keeps_refl s
  | succ fuel ih =>
    intro s r h
    unfold bfs_loop_full at h
    by_cases hlt : s.front < s.rear
    · rw [if_pos hlt] at h
      simp only at h
      have h1 : Keeps s { s with front := s.front + 1 } := fun _ hv => ⟨hv, rfl⟩
      exact keeps_trans _ _ _ h1
        (keeps_trans _ _ _ (keeps_scan g _ _) (ih _ _ h))
    · rw [if_neg hlt] at h
      injection h with h
      rw [← h]
      exact keeps_refl s

/-- The run with the early exit is the full run, or stops on `end_` in a state
the full run keeps. -/
theorem bfs_loop_vs_full (g : Graph) (end_ : Nat) :
    ∀ fuel s t r, bfs_loop g end_ fuel s = some t → bfs_loop_full g fuel s = some r →
      r = t ∨ ((∃ j, j < t.rear ∧ t.queue j = end_) ∧ Keeps t r) := by
  intro fuel
  induction fuel with
  | zero =>
    intro s t r h1 h2
    unfold bfs_loop at h1
    unfold bfs_loop_full at h2
    rw [h1] at h2
    injection h2 with h2
    exact Or.inl h2.symm
  | succ fuel ih =>
    intro s t r h1 h2
    unfold bfs_loop at h1
    unfold bfs_loop_full at h2
    by_cases hlt : s.front < s.rear
    · rw [if_pos hlt] at h1 h2
      simp only at h1 h2
      by_cases hend : s.queue s.front = end_
      · rw [if_pos hend] at h1
        injection h1 with h1
        right
        rw [← h1]
        refine ⟨⟨s.front, hlt, hend⟩, ?_⟩
        exact keeps_trans _ _ _ (keeps_scan g _ _) (keeps_loop_full g _ _ _ h2)
      · rw [if_neg hend] at h1
        exact ih _ t r h1 h2
    · rw [if_neg hlt] at h1 h2
      rw [h1] at h2
      injection h2 with h2
      exact Or.inl h2.symm

theorem bfs_loop_full_returns (g : Graph) (start : Nat) :
    ∀ fuel s, (∃ d, BfsInv g start d s g.num_compounds) →
      g.num_compounds ≤ s.front + fuel → ∃ r, bfs_loop_full g fuel s = some r := by
  intro fuel
  induction fuel with
  | zero =>
    intro s ⟨d, h⟩ hfuel
    have h1 := bfs_rear_le g start d s _ h
    unfold bfs_loop_full
    rw [if_neg (by omega)]
    exact ⟨s, rfl⟩
  | succ fuel ih =>
    intro s ⟨d, h⟩ hfuel
    unfold bfs_loop_full
    by_cases hlt : s.front < s.rear
    · rw [if_pos hlt]
      simp only
      have hdq := bfs_dequeue_inv g start d s h hlt
      obtain ⟨k1, k2, _, _⟩ := bfs_scan_inv g start { s with front := s.front + 1 }
        (Nat.succ_pos _) ⟨d, hdq⟩
      apply ih _ k1
      rw [k2]
      show g.num_compounds ≤ s.front + 1 + fuel
      omega
    · rw [if_neg hlt]
      exact ⟨s, rfl⟩

theorem walk_back_congr (P Q : Nat → Int) (S : Nat → Prop)
    (hag : ∀ v, S v → Q v = P v)
    (hcl : ∀ v, S v → P v = -1 ∨ ∃ u : Nat, P v = (u : Int) ∧ S u) :
    ∀ (fuel v : Nat), S v → ∀ acc : List Int,
      walk_back Q fuel (v : Int) acc = walk_back P fuel (v : Int) acc := by
  intro fuel
  induction fuel with
  | zero =>
    intro v _ acc
    rfl
  | succ fuel ih =>
    intro v hv acc
    have hne : (v : Int) ≠ -1 := by omega
    unfold walk_back
    rw [if_pos hne, if_pos hne, Int.toNat_ofNat, hag v hv]
    rcases hcl v hv with h1 | ⟨u, h1, h2⟩
    · rw [h1, walk_back_done, walk_back_done]
    · rw [h1]
      exact ih u h2 _

theorem visited_closed (g : Graph) (start : Nat) (d : Nat → Nat) (t : BfsState) (i : Nat)
    (h : BfsInv g start d t i) :
    ∀ v, t.visited v ≠ 0 →
      t.parent v = -1 ∨ ∃ u : Nat, t.parent v = (u : Int) ∧ t.visited u ≠ 0 := by
  intro v hv
  obtain ⟨j, hj, hjv⟩ := h.queue_vis v hv
  by_cases hj0 : j = 0
  · left
    rw [← hjv, hj0, h.q_zero]
    exact h.par_start
  · right
    obtain ⟨k, _, hk2, hk3, _⟩ := h.par j (by omega) hj
    rw [hjv] at hk3
    exact ⟨t.queue k, hk3, h.vis_queue k (by omega)⟩

/-- C16 (the early exit changes nothing that is read): on a graph within
capacity and registered indices, `bfs` and the search run until the queue is
empty both return; the backward walk from `end_` gives the same index sequence
on both `parent` arrays, the no-path test of the handler has the same outcome,
`getConversionPath` returns the same text and path, and the found-branch of the
handler gives the same answer with either search. -/
theorem early_exit_sound (g : Graph) (start end_ : Nat)
    (hcap : g.num_compounds ≤ MAX_COMPOUNDS)
    (hs : start < g.num_compounds) (he : end_ < g.num_compounds) :
    ∃ parent parentFull, bfs g start end_ (fun _ => -1) = some parent ∧
      bfs_full g start (fun _ => -1) = some parentFull ∧
      walk_back parentFull MAX_COMPOUNDS (end_ : Int) []
        = walk_back parent MAX_COMPOUNDS (end_ : Int) [] ∧
      ((start ≠ end_ ∧ parentFull end_ = -1) ↔ (start ≠ end_ ∧ parent end_ = -1)) ∧
      (∀ reactions, getConversionPath g parentFull (start : Int) (end_ : Int) reactions
        = getConversionPath g parent (start : Int) (end_ : Int) reactions) ∧
      ∀ reactions, search_found_with (fun graph s _ p => bfs_full graph s p) g reactions
          (start : Int) (end_ : Int)
        = search_found_with bfs g reactions (start : Int) (end_ : Int) := by
  obtain ⟨t, ht, hb, hexit⟩ := bfs_returns g start end_ hcap hs
  have hinit := bfs_init_inv g start (fun _ => -1) g.num_compounds hs (fun _ => rfl)
  obtain ⟨r, hr⟩ := bfs_loop_full_returns g start MAX_COMPOUNDS
    (bfs_init start (fun _ => -1)) ⟨_, hinit⟩
    (by
      show g.num_compounds ≤ 0 + MAX_COMPOUNDS
      omega)
  have hbf : bfs_full g start (fun _ => -1) = some r.parent := by
    unfold bfs_full
    rw [hr]
    rfl
  have hwalk : walk_back r.parent MAX_COMPOUNDS (end_ : Int) []
      = walk_back t.parent MAX_COMPOUNDS (end_ : Int) [] ∧ r.parent end_ = t.parent end_ := by
    rcases bfs_loop_vs_full g end_ _ _ t r ht hr with hrt | ⟨⟨j, hj, hje⟩, hk⟩
    · rw [hrt]
      exact ⟨rfl, rfl⟩
    · obtain ⟨d, i, h⟩ := bfs_exit_inv g start end_ t hexit
      have hve : t.visited end_ ≠ 0 := by
        rw [← hje]
        exact h.vis_queue j hj
      exact ⟨walk_back_congr t.parent r.parent (fun v => t.visited v ≠ 0)
        (fun v hv => (hk v hv).2) (visited_closed g start d t i h) _ end_ hve [],
        (hk end_ hve).2⟩
  refine ⟨t.parent, r.parent, hb, hbf, hwalk.1, by rw [hwalk.2], ?_, ?_⟩
  · intro reactions
    unfold getConversionPath
    rw [hwalk.1]
  · intro reactions
    unfold search_found_with
    simp only [Int.toNat_ofNat, hb, hbf, hwalk.2]
    unfold getConversionPath
    rw [hwalk.1]

theorem early_exit_sound_witness :
    (load oxidationTriples).graph.num_compounds ≤ MAX_COMPOUNDS ∧
    1 < (load oxidationTriples).graph.num_compounds ∧
    3 < (load oxidationTriples).graph.num_compounds ∧
    ∃ parent parentFull, bfs (load oxidationTriples).graph 1 3 (fun _ => -1) = some parent ∧
      bfs_full (load oxidationTriples).graph 1 (fun _ => -1) = some parentFull ∧
      walk_back parentFull MAX_COMPOUNDS ((3 : Nat) : Int) []
        = walk_back parent MAX_COMPOUNDS ((3 : Nat) : Int) [] :=
  ⟨by decide, by decide, by decide,
   (early_exit_sound (load oxidationTriples).graph 1 3 (by decide) (by decide)
      (by decide)).imp (fun _ h => h.imp (fun _ k => ⟨k.1, k.2.1, k.2.2.1⟩))⟩

/-! ## The tie-break: the lexicographic order -/

theorem lexLt_trans : ∀ (a b c : List Nat), LexLt a b → LexLt b c → LexLt a c
  | [], [], _, h, _ => absurd h (by simp [LexLt])
  | [], _ :: _, [], _, h => absurd h (by simp [LexLt])
  | [], _ :: _, _ :: _, _, _ => by simp [LexLt]
  | _ :: _, [], _, h, _ => absurd h (by simp [LexLt])
  | _ :: _, _ :: _, [], _, h => absurd h (by simp [LexLt])
  | x :: a, y :: b, z :: c, h1, h2 => by
    simp only [LexLt] at h1 h2 ⊢
    rcases h1 with h1 | ⟨h1, h1r⟩
    · rcases h2 with h2 | ⟨h2, _⟩
      · exact Or.inl (by omega)
      · exact Or.inl (by omega)
    · rcases h2 with h2 | ⟨h2, h2r⟩
      · exact Or.inl (by omega)
      · exact Or.inr ⟨by omega, lexLt_trans a b c h1r h2r⟩

theorem lexLe_trans (a b c : List Nat) (h1 : LexLe a b) (h2 : LexLe b c) : LexLe a c := by
  rcases h1 with h1 | h1
  · rw [h1]
    exact h2
  · rcases h2 with h2 | h2
    · rw [← h2]
      exact Or.inr h1
    · exact Or.inr (lexLt_trans a b c h1 h2)

theorem lexLt_append : ∀ (a b x y : List Nat), a.length = b.length → LexLt a b →
    LexLt (a ++ x) (b ++ y)
  | [], [], _, _, _, h => absurd h (by simp [LexLt])
  | [], _ :: _, _, _, hl, _ => by simp at hl
  | _ :: _, [], _, _, hl, _ => by simp at hl
  | u :: a, v :: b, x, y, hl, h => by
    simp only [List.length_cons, Nat.add_right_cancel_iff] at hl
    simp only [LexLt, List.cons_append] at h ⊢
    rcases h with h | ⟨h, hr⟩
    · exact Or.inl h
    · exact Or.inr ⟨h, lexLt_append a b x y hl hr⟩

theorem lexLt_append_last : ∀ (a : List Nat) (x y : Nat), x < y → LexLt (a ++ [x]) (a ++ [y])
  | [], x, y, h => by
    simp only [List.nil_append, LexLt]
    exact Or.inl h
  | u :: a, x, y, h => by
    show u < u ∨ (u = u ∧ LexLt (a ++ [x]) (a ++ [y]))
    exact Or.inr ⟨rfl, lexLt_append_last a x y h⟩

theorem lexLe_append (a b : List Nat) (x : Nat) (hl : a.length = b.length) (h : LexLe a b) :
    LexLe (a ++ [x]) (b ++ [x]) := by
  rcases h with h | h
  · rw [h]
    exact Or.inl rfl
  · exact Or.inr (lexLt_append a b [x] [x] hl h)

theorem linked_snoc_inv (R : Nat → Nat → Prop) (y : Nat) :
    ∀ (p : List Nat), Linked R (p ++ [y]) →
      Linked R p ∧ ∀ x, p.getLast? = some x → R x y
  | [], _ => ⟨trivial, fun x hx => by simp at hx⟩
  | [a], h => by
    refine ⟨trivial, ?_⟩
    intro x hx
    simp only [List.getLast?_singleton, Option.some.injEq] at hx
    rw [← hx]
    exact h.1
  | a :: b :: rest, h => by
    have h1 : R a b ∧ Linked R ((b :: rest) ++ [y]) := h
    obtain ⟨k1, k2⟩ := linked_snoc_inv R y (b :: rest) h1.2
    refine ⟨⟨h1.1, k1⟩, ?_⟩
    intro x hx
    rw [List.getLast?_cons_cons] at hx
    exact k2 x hx

theorem tree_length (g : Graph) (start : Nat) (d : Nat → Nat) (T : Nat → List Nat)
    (s : BfsState) (i m : Nat) (h : BfsInv g start d s i) (hl : LexInv g start T s m) :
    ∀ j, j < s.rear → (T (s.queue j)).length = d (s.queue j) + 1 := by
  intro j
  induction j using Nat.strong_induction_on with
  | _ j ih =>
    intro hj
    by_cases hj0 : j = 0
    · rw [hj0, h.q_zero, hl.t_start, h.d_zero]
      rfl
    · obtain ⟨k1, _, hk1, hp1, _, hd1⟩ := h.par j (by omega) hj
      obtain ⟨k2, hk2, _, hp2, ht2⟩ := hl.t_par j (by omega) hj
      have hq : s.queue k1 = s.queue k2 := by
        have : (s.queue k1 : Int) = (s.queue k2 : Int) := by rw [← hp1, ← hp2]
        exact_mod_cast this
      have hk : k1 = k2 := h.inj k1 k2 (by omega) (by omega) hq
      subst hk
      rw [ht2, List.length_append, List.length_singleton, ih k1 hk1 (by omega), hd1]

/-- During the scan of `queue[front - 1]`: a directed path from a visited index
that is no longer than the depth left to the scanned index ends in a visited
index. -/
theorem reach_bound (g : Graph) (start : Nat) (d : Nat → Nat) (s : BfsState) (i : Nat)
    (h : BfsInv g start d s i) :
    ∀ (P : List Nat) (x u : Nat), P.head? = some x → P.getLast? = some u →
      Linked (Adj g) P → s.visited x ≠ 0 →
      d x + (P.length - 1) ≤ d (s.queue (s.front - 1)) →
      s.visited u ≠ 0 ∧ d u ≤ d x + (P.length - 1)
  | [], x, u, hh, _, _, _, _ => by simp at hh
  | [a], x, u, hh, hlast, _, hv, _ => by
    simp only [List.head?_cons, Option.some.injEq] at hh
    simp only [List.getLast?_singleton, Option.some.injEq] at hlast
    subst hh hlast
    exact ⟨hv, by omega⟩
  | a :: b :: rest, x, u, hh, hlast, hp, hv, hb => by
    simp only [List.head?_cons, Option.some.injEq] at hh
    subst hh
    simp only [List.length_cons] at hb ⊢
    obtain ⟨j, hj, hja⟩ := h.queue_vis a hv
    have hjf : j + 1 < s.front := by
      by_contra hge
      have hm := h.mono (s.front - 1) j (by omega) hj
      rw [hja] at hm
      omega
    have hab : Adj g (s.queue j) b := by
      rw [hja]
      exact hp.1
    obtain ⟨hvb, hdb⟩ := h.done j b hjf hab
    rw [hja] at hdb
    have hl2 : (b :: rest).getLast? = some u := by
      rw [← hlast, List.getLast?_cons_cons]
    obtain ⟨k1, k2⟩ := reach_bound g start d s i h (b :: rest) b u rfl hl2 hp.2 hvb
      (by simp only [List.length_cons]; omega)
    simp only [List.length_cons] at k2
    exact ⟨k1, by omega⟩

/-- One step of the scan keeps the tie-break invariant. -/
theorem lex_visit_inv (g : Graph) (start : Nat) (d : Nat → Nat) (T : Nat → List Nat)
    (s : BfsState) (i : Nat) (h : BfsInv g start d s i) (hl : LexInv g start T s i)
    (hf : 0 < s.front) (hi : i < g.num_compounds) :
    ∃ T2, LexInv g start T2 (bfs_visit g (s.queue (s.front - 1)) s i) (i + 1) := by
  have hfl := h.front_le
  have hcl : s.front - 1 < s.rear := by omega
  have hlen := tree_length g start d T s i i h hl
  by_cases hc : g.adjacency (s.queue (s.front - 1)) i ≠ 0 ∧ s.visited i = 0
  · rw [bfs_visit_take g _ s i hc]
    obtain ⟨hadj, hvis⟩ := hc
    have hnq : ∀ j, j < s.rear → s.queue j ≠ i := by
      intro j hj hji
      apply h.vis_queue j hj
      rw [hji]
      exact hvis
    have hq : ∀ j, j < s.rear → setAt s.queue s.rear i j = s.queue j := by
      intro j hj
      exact setAt_other _ _ _ _ (by omega)
    have hcne : s.queue (s.front - 1) ≠ i := hnq _ hcl
    have hsne : start ≠ i := by
      rw [← h.q_zero]
      exact hnq 0 h.rear_pos
    have hcurlen : (T (s.queue (s.front - 1))).length = d (s.queue (s.front - 1)) + 1 :=
      hlen _ hcl
    refine ⟨setAt T i (T (s.queue (s.front - 1)) ++ [i]), ?_⟩
    constructor
    · rw [setAt_other _ _ _ _ hsne]
      exact hl.t_start
    · intro j h0 hj
      have hj1 : j < s.rear + 1 := hj
      show ∃ k, k < j ∧ k < s.front ∧
        setAt s.parent i _ (setAt s.queue s.rear i j) = ((setAt s.queue s.rear i k : Nat) : Int) ∧
        setAt T i _ (setAt s.queue s.rear i j)
          = setAt T i _ (setAt s.queue s.rear i k) ++ [setAt s.queue s.rear i j]
      by_cases hjr : j = s.rear
      · refine ⟨s.front - 1, by omega, by omega, ?_, ?_⟩
        · rw [hjr, setAt_same, setAt_same, hq _ hcl]
        · rw [hjr, setAt_same, setAt_same, hq _ hcl, setAt_other _ _ _ _ hcne]
      · have hj2 : j < s.rear := by omega
        obtain ⟨k, hk1, hk2, hk3, hk4⟩ := hl.t_par j h0 hj2
        have hk5 : k < s.rear := by omega
        refine ⟨k, hk1, hk2, ?_, ?_⟩
        · rw [hq j hj2, hq k hk5, setAt_other _ _ _ _ (hnq j hj2)]
          exact hk3
        · rw [hq j hj2, hq k hk5, setAt_other _ _ _ _ (hnq j hj2),
            setAt_other _ _ _ _ (hnq k hk5)]
          exact hk4
    · intro j k hjk hk hlenEq
      have hk1 : k < s.rear + 1 := hk
      have hlenEq1 : (setAt T i (T (s.queue (s.front - 1)) ++ [i])
          (setAt s.queue s.rear i j)).length
          = (setAt T i (T (s.queue (s.front - 1)) ++ [i])
            (setAt s.queue s.rear i k)).length := hlenEq
      show LexLt (setAt T i _ (setAt s.queue s.rear i j))
        (setAt T i _ (setAt s.queue s.rear i k))
      by_cases hkr : k = s.rear
      · have hj2 : j < s.rear := by omega
        rw [hkr, setAt_same, setAt_same, hq j hj2, setAt_other _ _ _ _ (hnq j hj2)] at hlenEq1
        rw [hkr, setAt_same, setAt_same, hq j hj2, setAt_other _ _ _ _ (hnq j hj2)]
        rw [List.length_append, List.length_singleton] at hlenEq1
        have hj0 : 0 < j := by
          by_contra hz
          have hz0 : j = 0 := by omega
          rw [hz0, h.q_zero, hl.t_start] at hlenEq1
          simp only [List.length_singleton] at hlenEq1
          omega
        obtain ⟨m, hm1, hm2, hm3, hm4⟩ := hl.t_par j hj0 hj2
        rw [hm4]
        rw [hm4, List.length_append, List.length_singleton] at hlenEq1
        by_cases hmf : m = s.front - 1
        · rw [hmf] at hm3 ⊢
          exact lexLt_append_last _ _ _ (hl.t_cur j hj0 hj2 hf hm3)
        · exact lexLt_append _ _ _ _ (by omega)
            (hl.t_order m (s.front - 1) (by omega) hcl (by omega))
      · have hk2 : k < s.rear := by omega
        have hj2 : j < s.rear := by omega
        rw [hq j hj2, hq k hk2, setAt_other _ _ _ _ (hnq j hj2),
          setAt_other _ _ _ _ (hnq k hk2)] at hlenEq1
        rw [hq j hj2, hq k hk2, setAt_other _ _ _ _ (hnq j hj2),
          setAt_other _ _ _ _ (hnq k hk2)]
        exact hl.t_order j k hjk hk2 hlenEq1
    · intro j hj P hhead hlast hlink hPlen
      have hj1 : j < s.rear + 1 := hj
      have hlast1 : P.getLast? = some (setAt s.queue s.rear i j) := hlast
      have hPlen1 : P.length
          = (setAt T i (T (s.queue (s.front - 1)) ++ [i]) (setAt s.queue s.rear i j)).length :=
        hPlen
      show LexLe (setAt T i _ (setAt s.queue s.rear i j)) P
      by_cases hjr : j = s.rear
      · rw [hjr, setAt_same] at hlast1
        rw [hjr, setAt_same, setAt_same, List.length_append, List.length_singleton] at hPlen1
        rw [hjr, setAt_same, setAt_same]
        obtain ⟨Q, hQ⟩ : ∃ Q, P = Q ++ [i] :=
          ⟨P.dropLast, (List.dropLast_append_getLast? i hlast1).symm⟩
        subst hQ
        rw [List.length_append, List.length_singleton] at hPlen1
        have hQlen : Q.length = d (s.queue (s.front - 1)) + 1 := by omega
        obtain ⟨hlinkQ, hadjQ⟩ := linked_snoc_inv (Adj g) i Q hlink
        cases Q with
        | nil => simp at hQlen
        | cons a rest =>
          have hheadQ : (a :: rest).head? = some start := by
            simpa using hhead
          rcases hgl : (a :: rest).getLast? with _ | u
          · simp at hgl
          · have hstartv : s.visited start ≠ 0 := by
              rw [← h.q_zero]
              exact h.vis_queue 0 h.rear_pos
            obtain ⟨hvu, hdu⟩ := reach_bound g start d s i h (a :: rest) start u hheadQ hgl
              hlinkQ hstartv (by rw [h.d_zero, hQlen]; omega)
            rw [h.d_zero, hQlen] at hdu
            obtain ⟨ju, hju, hjuu⟩ := h.queue_vis u hvu
            have hnotdone : ¬ (ju + 1 < s.front) := by
              intro hdone
              have hau : Adj g (s.queue ju) i := by
                rw [hjuu]
                exact hadjQ u hgl
              exact (h.done ju i hdone hau).1 hvis
            have hmono := h.mono (s.front - 1) ju (by omega) hju
            rw [hjuu] at hmono
            have hdeq : d u = d (s.queue (s.front - 1)) := by omega
            have hTu : (T u).length = d u + 1 := by
              rw [← hjuu]
              exact hlen ju hju
            have h1 : LexLe (T (s.queue (s.front - 1))) (T u) := by
              by_cases hjf : ju = s.front - 1
              · rw [← hjf, hjuu]
                exact Or.inl rfl
              · right
                have := hl.t_order (s.front - 1) ju (by omega) hju
                  (by rw [hcurlen, hjuu, hTu, hdeq])
                rw [hjuu] at this
                exact this
            have h2 : LexLe (T u) (a :: rest) := by
              have := hl.t_min ju hju (a :: rest) hheadQ (by rw [hjuu]; exact hgl) hlinkQ
                (by rw [hjuu, hTu, hQlen, hdeq])
              rw [hjuu] at this
              exact this
            exact lexLe_append _ _ i (by rw [hcurlen, hQlen])
              (lexLe_trans _ _ _ h1 h2)
      · have hj2 : j < s.rear := by omega
        rw [hq j hj2] at hlast1
        rw [hq j hj2, setAt_other _ _ _ _ (hnq j hj2)] at hPlen1
        rw [hq j hj2, setAt_other _ _ _ _ (hnq j hj2)]
        exact hl.t_min j hj2 P hhead hlast1 hlink hPlen1
    · intro j h0 hj hfront hpar
      have hj1 : j < s.rear + 1 := hj
      have hpar1 : setAt s.parent i ((s.queue (s.front - 1) : Nat) : Int)
          (setAt s.queue s.rear i j)
          = ((setAt s.queue s.rear i (s.front - 1) : Nat) : Int) := hpar
      show setAt s.queue s.rear i j < i + 1
      by_cases hjr : j = s.rear
      · rw [hjr, setAt_same]
        omega
      · have hj2 : j < s.rear := by omega
        rw [hq j hj2, hq _ hcl, setAt_other _ _ _ _ (hnq j hj2)] at hpar1
        rw [hq j hj2]
        have := hl.t_cur j h0 hj2 hf hpar1
        omega
  · rw [bfs_visit_skip g _ s i hc]
    refine ⟨T, hl.t_start, hl.t_par, hl.t_order, hl.t_min, ?_⟩
    intro j h0 hj hfront hpar
    have := hl.t_cur j h0 hj hfront hpar
    omega

theorem lex_init_inv (g : Graph) (start : Nat) (parent : Nat → Int) (i : Nat) :
    LexInv g start (fun _ => [start]) (bfs_init start parent) i := by
  constructor
  · rfl
  · intro j h0 hj
    simp only [bfs_init] at hj
    omega
  · intro j k hjk hk
    simp only [bfs_init] at hk
    omega
  · intro j _ P hhead _ _ hlen
    simp only at hlen
    left
    cases P with
    | nil => simp at hhead
    | cons a rest =>
      simp only [List.head?_cons, Option.some.injEq] at hhead
      simp only [List.length_cons, List.length_nil] at hlen
      have hrest : rest = [] := List.length_eq_zero.1 (by omega)
      rw [hhead, hrest]
  · intro j h0 hj
    simp only [bfs_init] at hj
    omega

theorem lex_dequeue_inv (g : Graph) (start : Nat) (d : Nat → Nat) (T : Nat → List Nat)
    (s : BfsState) (i m : Nat) (h : BfsInv g start d s i) (hl : LexInv g start T s m)
    (hlt : s.front < s.rear) :
    LexInv g start T { s with front := s.front + 1 } 0 := by
  refine ⟨hl.t_start, ?_, hl.t_order, hl.t_min, ?_⟩
  · intro j h0 hj
    obtain ⟨k, hk1, hk2, hk3⟩ := hl.t_par j h0 hj
    exact ⟨k, hk1, Nat.lt_succ_of_lt hk2, hk3⟩
  · intro j h0 hj _ hpar
    have hj1 : j < s.rear := hj
    have hpar1 : s.parent (s.queue j) = ((s.queue (s.front + 1 - 1) : Nat) : Int) := hpar
    rw [Nat.add_sub_cancel] at hpar1
    obtain ⟨k, _, hk2, hk3, _⟩ := hl.t_par j h0 hj1
    have hq : s.queue k = s.queue s.front := by
      have : (s.queue k : Int) = (s.queue s.front : Int) := by rw [← hk3, ← hpar1]
      exact_mod_cast this
    have := h.inj k s.front (by omega) hlt hq
    omega

theorem lex_scan_upto (g : Graph) (start : Nat) (s : BfsState)
    (hf : 0 < s.front) (hinv : ∃ d, BfsInv g start d s 0) (hlex : ∃ T, LexInv g start T s 0) :
    ∀ m, m ≤ g.num_compounds →
      ∃ T2, LexInv g start T2
        ((List.range m).foldl (bfs_visit g (s.queue (s.front - 1))) s) m := by
  intro m
  induction m with
  | zero =>
    intro _
    exact hlex
  | succ m ih =>
    intro hm
    obtain ⟨T1, hl1⟩ := ih (by omega)
    obtain ⟨⟨d1, h1⟩, h2, h3, h4⟩ := bfs_scan_upto g start s hf hinv m (by omega)
    rw [List.range_succ, List.foldl_append]
    simp only [List.foldl_cons, List.foldl_nil]
    generalize (List.range m).foldl (bfs_visit g (s.queue (s.front - 1))) s = t
      at hl1 h1 h2 h3 h4
    have hfl := hinv.choose_spec.front_le
    have hcur : s.queue (s.front - 1) = t.queue (t.front - 1) := by
      rw [h2, h4 (s.front - 1) (by omega)]
    rw [hcur]
    exact lex_visit_inv g start d1 T1 t m h1 hl1 (by omega) (by omega)

theorem lex_loop_inv (g : Graph) (start end_ : Nat) :
    ∀ fuel s t, (∃ d, BfsInv g start d s g.num_compounds) →
      (∃ T, LexInv g start T s g.num_compounds) →
      bfs_loop g end_ fuel s = some t → ∃ T i, LexInv g start T t i := by
  intro fuel
  induction fuel with
  | zero =>
    intro s t _ ⟨T, hl⟩ hrun
    unfold bfs_loop at hrun
    by_cases hlt : s.front < s.rear
    · rw [if_pos hlt] at hrun
      exact absurd hrun (by simp)
    · rw [if_neg hlt] at hrun
      injection hrun with hrun
      rw [← hrun]
      exact ⟨T, _, hl⟩
  | succ fuel ih =>
    intro s t ⟨d, h⟩ ⟨T, hl⟩ hrun
    unfold bfs_loop at hrun
    by_cases hlt : s.front < s.rear
    · rw [if_pos hlt] at hrun
      simp only at hrun
      have hdq := bfs_dequeue_inv g start d s h hlt
      have hldq := lex_dequeue_inv g start d T s _ _ h hl hlt
      by_cases hend : s.queue s.front = end_
      · rw [if_pos hend] at hrun
        injection hrun with hrun
        rw [← hrun]
        exact ⟨T, 0, hldq⟩
      · rw [if_neg hend] at hrun
        have hsc := (bfs_scan_inv g start { s with front := s.front + 1 }
          (Nat.succ_pos _) ⟨d, hdq⟩).1
        have hlsc := lex_scan_upto g start { s with front := s.front + 1 }
          (Nat.succ_pos _) ⟨d, hdq⟩ ⟨T, hldq⟩ g.num_compounds (le_refl _)
        exact ih _ t hsc hlsc hrun
    · rw [if_neg hlt] at hrun
      injection hrun with hrun
      rw [← hrun]
      exact ⟨T, _, hl⟩

/-- The backward walk from a queued index pushes the sequence `T` in reverse. -/
theorem walk_back_tree (g : Graph) (start : Nat) (d : Nat → Nat) (T : Nat → List Nat)
    (s : BfsState) (i m : Nat) (h : BfsInv g start d s i) (hl : LexInv g start T s m) :
    ∀ j, j < s.rear → ∀ fuel, j + 1 ≤ fuel → ∀ acc : List Int,
      walk_back s.parent fuel (s.queue j : Int) acc
        = some (acc ++ (T (s.queue j)).reverse.map (fun x : Nat => (x : Int))) := by
  intro j
  induction j using Nat.strong_induction_on with
  | _ j ih =>
    intro hj fuel hfuel acc
    obtain ⟨f, rfl⟩ : ∃ f, fuel = f + 1 := ⟨fuel - 1, by omega⟩
    have hne : (s.queue j : Int) ≠ -1 := by omega
    unfold walk_back
    rw [if_pos hne, Int.toNat_ofNat]
    by_cases hj0 : j = 0
    · subst hj0
      rw [h.q_zero, h.par_start, walk_back_done, hl.t_start]
      rfl
    · obtain ⟨k, hk1, _, hk3, hk4⟩ := hl.t_par j (by omega) hj
      rw [hk3, ih k hk1 (by omega) f (by omega), hk4]
      simp

theorem map_cast_injective (p q : List Nat)
    (h : p.map (fun x : Nat => (x : Int)) = q.map (fun x : Nat => (x : Int))) : p = q := by
  have hinj : Function.Injective (fun x : Nat => (x : Int)) := fun a b hab => by
    simpa using hab
  exact List.map_injective_iff.2 hinj h

/-- C17 (tie-break): on a graph within capacity, for registered indices with a
directed path from `start` to `end_`, the handler returns a directed path of
least length, and this path is at most every directed path of that length from
`start` to `end_` in the lexicographic order of index sequences. -/
theorem path_lex_smallest (g : Graph) (reactions : List Reaction) (start end_ : Nat)
    (hcap : g.num_compounds ≤ MAX_COMPOUNDS)
    (hs : start < g.num_compounds) (he : end_ < g.num_compounds)
    (hreach : ∃ q, DirectedPath g start end_ q) :
    ∃ (text : String) (p : List Nat),
      search_found_with bfs g reactions (start : Int) (end_ : Int)
        = some (text, p.map (fun x : Nat => (x : Int))) ∧
      DirectedPath g start end_ p ∧
      (∀ q, DirectedPath g start end_ q → p.length ≤ q.length) ∧
      ∀ q, DirectedPath g start end_ q → q.length = p.length → LexLe p q := by
  obtain ⟨parent, hb, hcase⟩ := search_found_spec g reactions start end_ hcap hs he
  rcases hcase with ⟨_, _, _, h4⟩ | ⟨_, p, hp1, hp2, hp3, hp4⟩
  · obtain ⟨q, hq⟩ := hreach
    exact absurd hq (h4 q)
  · refine ⟨_, p, hp2, hp3, hp4, ?_⟩
    obtain ⟨t, ht, hbt, hexit⟩ := bfs_returns g start end_ hcap hs
    have hpar : parent = t.parent := by
      rw [hb] at hbt
      injection hbt
    have hinit := bfs_init_inv g start (fun _ => -1) g.num_compounds hs (fun _ => rfl)
    obtain ⟨T, m, hl⟩ := lex_loop_inv g start end_ MAX_COMPOUNDS _ t ⟨_, hinit⟩
      ⟨_, lex_init_inv g start (fun _ => -1) g.num_compounds⟩ ht
    rcases hexit with ⟨d, h, hf, hend⟩ | ⟨d, h, hfr, hne⟩
    · have hfl := h.front_le
      have hrl := bfs_rear_le g start d t 0 h
      have hj : t.front - 1 < t.rear := by omega
      have hw := walk_back_tree g start d T t 0 m h hl (t.front - 1) hj MAX_COMPOUNDS
        (by omega) []
      rw [hend, List.nil_append] at hw
      have hg := getConversionPath_of_walk g t.parent (start : Int) (end_ : Int) reactions
        (T end_) hw
      rw [hpar, hg] at hp1
      have hpT : p = T end_ := by
        injection hp1 with hp1
        exact (map_cast_injective _ _ (Prod.mk.inj hp1).2).symm
      intro q hq hqlen
      have := hl.t_min (t.front - 1) hj q hq.1 (by rw [hend]; exact hq.2.1)
        (directedPath_linked g start end_ q hq) (by rw [hend, ← hpT]; exact hqlen)
      rw [hend, ← hpT] at this
      exact this
    · obtain ⟨q, hq⟩ := hreach
      have hvis : t.visited end_ ≠ 0 :=
        bfs_empty_closed g start end_ d t h hfr q start hq.1 hq.2.1
          (directedPath_linked g start end_ q hq)
          (by
            rw [← h.q_zero]
            exact h.vis_queue 0 h.rear_pos)
      obtain ⟨j, hj, hje⟩ := h.queue_vis end_ hvis
      exact absurd hje (hne j (by omega))

theorem oxidation_directed_path :
    DirectedPath (load oxidationTriples).graph 1 4 [1, 0, 2, 3, 4] :=
  ⟨by decide, by decide, by decide,
   ⟨by decide, by decide, by decide, by decide, trivial⟩⟩

theorem path_lex_smallest_witness :
    (load oxidationTriples).graph.num_compounds ≤ MAX_COMPOUNDS ∧
    1 < (load oxidationTriples).graph.num_compounds ∧
    4 < (load oxidationTriples).graph.num_compounds ∧
    (∃ q, DirectedPath (load oxidationTriples).graph 1 4 q) ∧
    ∃ (text : String) (p : List Nat),
      search_found_with bfs (load oxidationTriples).graph (load oxidationTriples).reactions
        ((1 : Nat) : Int) ((4 : Nat) : Int) = some (text, p.map (fun x : Nat => (x : Int))) ∧
      ∀ q, DirectedPath (load oxidationTriples).graph 1 4 q → q.length = p.length →
        LexLe p q :=
  ⟨by decide, by decide, by decide,
   ⟨[1, 0, 2, 3, 4], oxidation_directed_path⟩,
   (path_lex_smallest (load oxidationTriples).graph (load oxidationTriples).reactions 1 4
      (by decide) (by decide) (by decide)
      ⟨[1, 0, 2, 3, 4], oxidation_directed_path⟩).imp
     (fun _ h => h.imp (fun _ k => ⟨k.1, k.2.2.2⟩))⟩

/-! ## The line parser -/

end ReactionGraph
